import Mathlib

/-!
Shallow embedding of the big_lehmer crate (Lehmer-code permutation codec).

Sources embedded here:
- src/lib.rs              : Lehmer::encode_in, Lehmer::decode_in
- src/acceleration_structures.rs : EncodeAS, EncodeCache, DecodeAS
- src/encode.rs           : BigCache (combine / identity)
- src/decode.rs           : divide (base case of the recursive split-divide)

Machine integers are modelled as Nat.  u32 wrapping arithmetic (Rust release
semantics for overflowing add/sub) is made explicit through add32 / sub32 where
wrap-around is reachable; `as u32` casts are `% 2^32`.  The explicitly checked
u64/u128 operations of EncodeCache are modelled with explicit bound tests.
Rust panics (failed unwrap / assert / index out of bounds) are `none` / `.panic`.
Vec<u32> tree storage is modelled as an index function together with the vector
length; every in-bounds access of the source is guarded by the same bound.
-/

namespace BigLehmer

/-! # Definitions -/

/-- 2^32, the modulus of u32 arithmetic. -/
def u32Mod : ℕ := 4294967296

/-- Wrapping u32 addition (Rust release semantics). -/
def add32 (a b : ℕ) : ℕ := (a + b) % u32Mod

/-- Wrapping u32 subtraction (Rust release semantics). -/
def sub32 (a b : ℕ) : ℕ := (a + (u32Mod - b % u32Mod)) % u32Mod

/-!
Loops whose counter shrinks by division are modelled with a structural fuel
argument strictly larger than the iteration count; fuel irrelevance is proved
right next to each definition and yields the loop-shaped unfolding equation.
This keeps every definition computable by kernel reduction.
-/

/-- Fuel-indexed trailing-zeros count. -/
def tzF : ℕ → ℕ → ℕ
  | 0, _ => 0
  | fuel + 1, n => if n = 0 then 0 else if n % 2 = 1 then 0 else tzF fuel (n / 2) + 1

/-- Trailing-zeros count (u32::trailing_zeros; only applied to nonzero
indices, as in the source). -/
def tz (n : ℕ) : ℕ := tzF (n + 1) n

/-- Fuel-indexed next power of two, via the identity
nextPow2 n = 2 * nextPow2 ((n+1)/2) for n ≥ 2. -/
def nextPow2F : ℕ → ℕ → ℕ
  | 0, _ => 1
  | fuel + 1, n => if n ≤ 1 then 1 else 2 * nextPow2F fuel ((n + 1) / 2)

/-- usize::next_power_of_two (returns 1 for 0 and 1). -/
def nextPow2 (n : ℕ) : ℕ := nextPow2F (n + 1) n

/-- Little-endian byte-string to unsigned integer (UBig::from_le_bytes). -/
def leToNat : List ℕ → ℕ
  | [] => 0
  | b :: bs => b + 256 * leToNat bs

/-- Fuel-indexed little-endian byte expansion. -/
def leBytesF : ℕ → ℕ → List ℕ
  | 0, _ => []
  | fuel + 1, n => if n = 0 then [] else n % 256 :: leBytesF fuel (n / 256)

/-- Minimal little-endian byte representation (UBig::to_le_bytes); the
representation of zero is empty. -/
def leBytes (n : ℕ) : List ℕ := leBytesF (n + 1) n

/-- Error taxonomy of src/error.rs. -/
inductive Error where
  | validationDuplicateNumber
  | validationOutOfRange
  | sequenceToLong
  | outVectorSize
  | decodeError
deriving DecidableEq, Repr

/-- Outcome of running a fallible source function: normal return, an Error
value, or a Rust panic. -/
inductive RunResult (α : Type) where
  | ok (a : α)
  | err (e : Error)
  | panic
deriving DecidableEq, Repr

/-! ## EncodeAS — the encode-side ranking tree (acceleration_structures.rs) -/

/-- State of EncodeAS: the Vec<u32> of node weights as an index function
plus its length (`next_power_of_two` of the element count). -/
structure EncodeAS where
  len : ℕ
  tree : ℕ → ℕ

/-- EncodeAS::new. -/
def EncodeAS.new (elementCount : ℕ) : EncodeAS :=
  ⟨nextPow2 elementCount, fun _ => 0⟩

/-- Fuel-indexed loop of EncodeAS::insert. -/
def insertGoF : ℕ → (ℕ → ℕ) → ℕ → ℕ → ℕ → ℕ → (ℕ → ℕ) × ℕ
  | 0, tree, _, result, _, _ => (tree, result)
  | fuel + 1, tree, number, result, node, jump =>
    if number ≥ node then
      let result2 := result - tree node
      if jump = 0 then (tree, result2)
      else insertGoF fuel tree number result2 (node + jump) (jump / 2)
    else
      let tree2 := Function.update tree node (tree node + 1)
      if jump = 0 then (tree2, result)
      else insertGoF fuel tree2 number result (node - jump) (jump / 2)

/-- The loop of EncodeAS::insert.  Each iteration reads/writes the current
node, moves by `jump`, and stops after the iteration that ran with jump = 0
(see insertGo_eq for the loop-shaped equation).  The subtractions
`result - tree node` and `node - jump` never underflow in any reachable
state (established by the invariants below), so truncated Nat subtraction
coincides with the u32 subtraction of the source. -/
def EncodeAS.insertGo (tree : ℕ → ℕ) (number result node jump : ℕ) :
    (ℕ → ℕ) × ℕ :=
  insertGoF (jump + 1) tree number result node jump

/-- EncodeAS::insert.  `self.tree.len() as u32` is the wrapped length
(s.len % u32Mod). -/
def EncodeAS.insert (s : EncodeAS) (number : ℕ) : EncodeAS × ℕ :=
  (⟨s.len, (EncodeAS.insertGo s.tree number number (s.len % u32Mod / 2) (s.len % u32Mod / 4)).1⟩,
   (EncodeAS.insertGo s.tree number number (s.len % u32Mod / 2) (s.len % u32Mod / 4)).2)

/-- Runs EncodeAS::insert over a list, returning the insert results in order
together with the final tree (the encode_as_helper of the source tests). -/
def digitsOf (s : EncodeAS) : List ℕ → List ℕ × EncodeAS
  | [] => ([], s)
  | x :: xs =>
    let r := s.insert x
    let rest := digitsOf r.1 xs
    (r.2 :: rest.1, rest.2)

/-- Insert results over a fresh tree of `elementCount` elements. -/
def encodeDigits (elementCount : ℕ) (numbers : List ℕ) : List ℕ :=
  (digitsOf (EncodeAS.new elementCount) numbers).1

/-- Reference Lehmer digits: d i = number of later entries smaller than the
entry at position i. -/
def refDigits (P : List ℕ) : List ℕ :=
  (List.range P.length).map
    (fun i => ((P.drop (i + 1)).filter (fun y => y < P.getD i 0)).length)

/-! ## EncodeCache — the u128 running accumulator (acceleration_structures.rs) -/

/-- EncodeCache: running add and mul, stored as u128 in the source. -/
structure EncodeCache where
  add : ℕ
  mul : ℕ
deriving DecidableEq, Repr

/-- EncodeCache::new — `add.checked_mul(mul).unwrap()` over u64 panics
(returns none) when the product overflows u64. -/
def EncodeCache.new (add mul : ℕ) : Option EncodeCache :=
  if add * mul < 2 ^ 64 then some ⟨add * mul, mul⟩ else none

/-- EncodeCache::add — three checked u128 operations; the state is u128 and
the two arguments are u64.  (Named addPair since `add` is a field.) -/
def EncodeCache.addPair (c : EncodeCache) (add mul : ℕ) : Option EncodeCache :=
  let tmp := c.add + add
  if tmp < 2 ^ 128 then
    if tmp * mul < 2 ^ 128 then
      if c.mul * mul < 2 ^ 128 then some ⟨tmp * mul, c.mul * mul⟩
      else none
    else none
  else none

/-- One iteration of the cache discipline of Lehmer::encode_in: push the pair
into the cache; on overflow flush `result := result * mul + add` and re-seed
the cache from the pair (EncodeCache::new, which can panic). -/
def cacheStep (st : ℕ × EncodeCache) (p : ℕ × ℕ) : Option (ℕ × EncodeCache) :=
  match st.2.addPair p.1 p.2 with
  | some c => some (st.1, c)
  | none =>
    let result := st.1 * st.2.mul + st.2.add
    (EncodeCache.new p.1 p.2).map (fun c => (result, c))

/-- Folding the cache discipline from a given (result, cache) state. -/
def cacheRunFrom (st : ℕ × EncodeCache) (pairs : List (ℕ × ℕ)) :
    Option (ℕ × EncodeCache) :=
  pairs.foldlM cacheStep st

/-- The big integer produced by the cache-based loop followed by the final
flush, starting (as encode_in does) from result 0 and cache (0, 1). -/
def cacheRun (pairs : List (ℕ × ℕ)) : Option ℕ :=
  (cacheRunFrom (0, ⟨0, 1⟩) pairs).map (fun st => st.1 * st.2.mul + st.2.add)

/-- The naive loop: result := (result + add) * mul once per pair, from v. -/
def naiveFrom (v : ℕ) (pairs : List (ℕ × ℕ)) : ℕ :=
  pairs.foldl (fun r p => (r + p.1) * p.2) v

/-- The naive loop from 0. -/
def naiveRun (pairs : List (ℕ × ℕ)) : ℕ := naiveFrom 0 pairs

/-! ## Lehmer::encode_in (lib.rs) -/

/-- Loop state of encode_in: the visitation Vec<bool> (as an index function;
its length is the input length), the ranking tree, the UBig result, and the
cache. -/
structure EncState where
  visited : ℕ → Bool
  encodeAs : EncodeAS
  result : ℕ
  cache : EncodeCache

/-- The main loop of encode_in over the first N-1 input numbers.
`totalLen` is numbers.len(); `index` is the enumerate index. -/
def encodeLoop (totalLen : ℕ) : List ℕ → ℕ → EncState → RunResult EncState
  | [], _, st => .ok st
  | number :: rest, index, st =>
    if number < totalLen then
      if st.visited number then .err .validationDuplicateNumber
      else
        let visited2 := Function.update st.visited number true
        let ins := st.encodeAs.insert number
        let add := ins.2
        let mul := totalLen - (index + 1)
        match st.cache.addPair add mul with
        | some c =>
          encodeLoop totalLen rest (index + 1) ⟨visited2, ins.1, st.result, c⟩
        | none =>
          let result := st.result * st.cache.mul + st.cache.add
          match EncodeCache.new add mul with
          | some c =>
            encodeLoop totalLen rest (index + 1) ⟨visited2, ins.1, result, c⟩
          | none => .panic
    else .err .validationOutOfRange

/-- The byte-writing loop at the end of encode_in: copy the little-endian
bytes into the out buffer; for bytes past the end of the buffer,
`assert!(byte == 0)` (panic when a nonzero byte is dropped). -/
def writeBytes : List ℕ → List ℕ → Option (List ℕ)
  | [], out => some out
  | b :: bs, _o :: os => (writeBytes bs os).map (fun l => b :: l)
  | b :: bs, [] => if b = 0 then writeBytes bs [] else none

/-- The big integer computed by encode_in after the final flush (none when
the loop panics or validation fails). -/
def encodeValue (numbers : List ℕ) : Option ℕ :=
  match encodeLoop numbers.length (numbers.take (numbers.length - 1)) 0
      ⟨fun _ => false, EncodeAS.new numbers.length, 0, ⟨0, 1⟩⟩ with
  | .ok st => some (st.result * st.cache.mul + st.cache.add)
  | _ => none

/-- Lehmer::encode_in.  The initial cache is EncodeCache::new(0, 1) = (0, 1).
Returns the final content of the out buffer. -/
def encodeIn (numbers : List ℕ) (out : List ℕ) : RunResult (List ℕ) :=
  if numbers.isEmpty then .ok out
  else
    match encodeLoop numbers.length (numbers.take (numbers.length - 1)) 0
        ⟨fun _ => false, EncodeAS.new numbers.length, 0, ⟨0, 1⟩⟩ with
    | .ok st =>
      let result := st.result * st.cache.mul + st.cache.add
      match writeBytes (leBytes result) out with
      | some out2 => .ok out2
      | none => .panic
    | .err e => .err e
    | .panic => .panic

/-! ## DecodeAS — the decode-side selection tree (acceleration_structures.rs) -/

/-- State of DecodeAS: the Vec<u32> of left-subtree primitive counts as an
index function plus its length. -/
structure DecodeAS where
  len : ℕ
  tree : ℕ → ℕ

/-- DecodeAS::new: slot 0 holds 1, slot i holds 1 << trailing_zeros(i). -/
def DecodeAS.new (elementCount : ℕ) : DecodeAS :=
  ⟨nextPow2 elementCount,
   fun i => if i < nextPow2 elementCount then (if i = 0 then 1 else 2 ^ tz i) else 0⟩

/-- Fuel-indexed loop of DecodeAS::remove. -/
def removeGoF : ℕ → (ℕ → ℕ) → ℕ → ℕ → ℕ → ℕ → ℕ → Option ((ℕ → ℕ) × ℕ)
  | 0, _, _, _, _, _, _ => none
  | fuel + 1, tree, len, number, leftCount, nodeId, jump =>
    if nodeId < len then
      let node := tree nodeId
      if number ≥ add32 node leftCount then
        if jump = 0 then some (tree, add32 nodeId jump)
        else removeGoF fuel tree len number (add32 leftCount node) (add32 nodeId jump) (jump / 2)
      else
        let tree2 := Function.update tree nodeId (sub32 node 1)
        if jump = 0 then some (tree2, sub32 (sub32 nodeId jump) 1)
        else removeGoF fuel tree2 len number leftCount (sub32 nodeId jump) (jump / 2)
    else none

/-- The loop of DecodeAS::remove (see removeGo_eq for the loop-shaped
equation).  All u32 adds/subs wrap (release semantics); an out-of-bounds Vec
index is a panic (none). -/
def DecodeAS.removeGo (tree : ℕ → ℕ) (len number leftCount nodeId jump : ℕ) :
    Option ((ℕ → ℕ) × ℕ) :=
  removeGoF (jump + 1) tree len number leftCount nodeId jump

/-- DecodeAS::remove.  `self.tree.len() as u32` is the wrapped length
(s.len % u32Mod). -/
def DecodeAS.remove (s : DecodeAS) (number : ℕ) : Option (DecodeAS × ℕ) :=
  (DecodeAS.removeGo s.tree s.len number 0 (s.len % u32Mod / 2) (s.len % u32Mod / 4)).map
    (fun r => (⟨s.len, r.1⟩, r.2))

/-! ## Lehmer::decode_in (lib.rs) -/

/-- The successive-division loop of decode_in: starting at divisor index+2,
emit `(input % divisor) as u32` and continue with the quotient, `count`
times.  The final quotient is dropped, exactly as in the source. -/
def digitsLoop (input index : ℕ) : ℕ → List ℕ
  | 0 => []
  | Nat.succ k =>
    (input % (index + 2)) % u32Mod :: digitsLoop (input / (index + 2)) (index + 1) k

/-- The reverse removal loop of decode_in, threading the selection tree. -/
def removesLoop (s : DecodeAS) : List ℕ → Option (DecodeAS × List ℕ)
  | [] => some (s, [])
  | t :: rest =>
    match s.remove t with
    | some r =>
      (removesLoop r.1 rest).map (fun q => (q.1, r.2 :: q.2))
    | none => none

/-- The part of decode_in after byte parsing, as a function of the parsed
integer and the out length (out length is nonzero here). -/
def decodePipeline (input outLen : ℕ) : RunResult (List ℕ) :=
  match removesLoop (DecodeAS.new outLen) (digitsLoop input 0 (outLen - 1)).reverse with
  | some r =>
    match r.1.remove 0 with
    | some q => .ok (r.2 ++ [q.2])
    | none => .panic
  | none => .panic

/-- Lehmer::decode_in. -/
def decodeIn (encoded : List ℕ) (outLen : ℕ) : RunResult (List ℕ) :=
  if outLen = 0 then .ok []
  else decodePipeline (leToNat encoded) outLen

/-! ## BigCache (encode.rs) — the map-reduce chunk monoid over UBig -/

/-- BigCache: an (add, mul) chunk over arbitrary-precision unsigned
integers. -/
structure BigCache where
  add : ℕ
  mul : ℕ
deriving DecidableEq, Repr

/-- BigCache::identity. -/
def BigCache.identity : BigCache := ⟨0, 1⟩

/-- BigCache::combine. -/
def BigCache.combine (left right : BigCache) : BigCache :=
  ⟨left.add * right.mul + right.add, left.mul * right.mul⟩

/-! ## divide (decode.rs) — base case of the recursive split-divide -/

/-- The division loop of decode.rs::divide, over a u64 dividend.  Each
remainder passes through `u32::try_from(..).unwrap()` (panic when ≥ 2^32, and
a zero divisor panics the % operation); after the loop, `assert_eq!(dividend, 0)`
panics on a nonzero residual. -/
def divideGo (dividend start index : ℕ) : ℕ → Option (List ℕ)
  | 0 => if dividend = 0 then some [] else none
  | Nat.succ k =>
    let divisor := start + index
    if divisor = 0 then none
    else
      let r := dividend % divisor
      if r < u32Mod then
        (divideGo (dividend / divisor) start (index + 1) k).map (fun l => r :: l)
      else none

/-- decode.rs::divide on a work item (dividend, start_index, remainder slice
of length remLen).  `u64::try_from(work.dividend).unwrap()` panics when the
dividend does not fit in a machine word. -/
def divide (dividend startIndex remLen : ℕ) : Option (List ℕ) :=
  if dividend < 2 ^ 64 then divideGo dividend startIndex 0 remLen else none

/-! ## Helper lemmas: the division loop only depends on the input mod N! -/

/-- Product of the divisors idx+2, idx+3, ..., idx+count+1. -/
def divisorProd (idx : ℕ) : ℕ → ℕ
  | 0 => 1
  | count + 1 => (idx + 2) * divisorProd (idx + 1) count

/-! ## Helper lemmas: interval counts and trailing-zeros arithmetic -/

/-- Number of elements of S in the interval lo ≤ s < hi. -/
def cntRange (S : Finset ℕ) (lo hi : ℕ) : ℕ :=
  (S.filter (fun s => lo ≤ s ∧ s < hi)).card

/-- The specification of one ranking-tree slot m ≥ 1: how many inserted
values fall in the left-half interval of node m, which is
m - 2^tz(m) ≤ s < m. -/
def cnt (S : Finset ℕ) (m : ℕ) : ℕ := cntRange S (m - 2 ^ tz m) m

/-- Reference recursion for the digit sequence: each element contributes
x minus the number of already-seen values (the set S) below x. -/
def digitsRefAux (S : Finset ℕ) : List ℕ → List ℕ
  | [] => []
  | x :: xs => (x - cntRange S 0 x) :: digitsRefAux (insert x S) xs

/-- The mixed-radix code of the claim:
C = D[0]*(N-1)! + D[1]*(N-2)! + ... + D[N-2]*1!. -/
def mixedRadix (D : List ℕ) (N : ℕ) : ℕ :=
  ∑ i in Finset.range (N - 1), D.getD i 0 * (N - 1 - i).factorial

/-- The little-endian representation of n zero-padded to length L. -/
def leBytesPad (n L : ℕ) : List ℕ :=
  leBytes n ++ List.replicate (L - (leBytes n).length) 0

/-- The counterexample permutation for the truncated regime: [1, 0, 2, 3,
…, 2^31], a permutation of N = 2^31 + 1 elements. -/
def badPerm : List ℕ := 1 :: 0 :: List.range' 2 (2 ^ 31 - 1)

/-! # Theorems -/

theorem tzF_congr : ∀ f1 f2 n : ℕ, n < f1 → n < f2 → tzF f1 n = tzF f2 n := by
  intro f1
  induction f1 with
  | zero => omega
  | succ g ih =>
    intro f2 n h1 h2
    cases f2 with
    | zero => omega
    | succ g2 =>
      simp only [tzF]
      by_cases h0 : n = 0
      · simp [h0]
      by_cases hodd : n % 2 = 1
      · simp [h0, hodd]
      · simp only [h0, hodd, if_false]
        rw [ih g2 (n / 2) (by omega) (by omega)]

/-- The source-shaped unfolding equation for tz. -/
theorem tz_eq (n : ℕ) :
    tz n = if n = 0 then 0 else if n % 2 = 1 then 0 else tz (n / 2) + 1 := by
  show tzF (n + 1) n = _
  simp only [tzF]
  by_cases h0 : n = 0
  · simp [h0]
  by_cases hodd : n % 2 = 1
  · simp [h0, hodd]
  · simp only [h0, hodd, if_false]
    rw [tzF_congr n (n / 2 + 1) (n / 2) (by omega) (by omega)]
    rfl

theorem nextPow2F_congr :
    ∀ f1 f2 n : ℕ, n < f1 → n < f2 → nextPow2F f1 n = nextPow2F f2 n := by
  intro f1
  induction f1 with
  | zero => omega
  | succ g ih =>
    intro f2 n h1 h2
    cases f2 with
    | zero => omega
    | succ g2 =>
      simp only [nextPow2F]
      by_cases hn : n ≤ 1
      · simp [hn]
      · simp only [hn, if_false]
        rw [ih g2 ((n + 1) / 2) (by omega) (by omega)]

/-- The recursion equation for nextPow2. -/
theorem nextPow2_eq (n : ℕ) :
    nextPow2 n = if n ≤ 1 then 1 else 2 * nextPow2 ((n + 1) / 2) := by
  show nextPow2F (n + 1) n = _
  simp only [nextPow2F]
  by_cases hn : n ≤ 1
  · simp [hn]
  · simp only [hn, if_false]
    rw [nextPow2F_congr n ((n + 1) / 2 + 1) ((n + 1) / 2) (by omega) (by omega)]
    rfl

theorem leBytesF_congr :
    ∀ f1 f2 n : ℕ, n < f1 → n < f2 → leBytesF f1 n = leBytesF f2 n := by
  intro f1
  induction f1 with
  | zero => omega
  | succ g ih =>
    intro f2 n h1 h2
    cases f2 with
    | zero => omega
    | succ g2 =>
      simp only [leBytesF]
      by_cases h0 : n = 0
      · simp [h0]
      · simp only [h0, if_false]
        rw [ih g2 (n / 256) (by omega) (by omega)]

/-- The recursion equation for leBytes. -/
theorem leBytes_eq (n : ℕ) :
    leBytes n = if n = 0 then [] else n % 256 :: leBytes (n / 256) := by
  show leBytesF (n + 1) n = _
  simp only [leBytesF]
  by_cases h0 : n = 0
  · simp [h0]
  · simp only [h0, if_false]
    rw [leBytesF_congr n (n / 256 + 1) (n / 256) (by omega) (by omega)]
    rfl

theorem insertGoF_congr :
    ∀ f1 f2 tree number result node jump, jump < f1 → jump < f2 →
      insertGoF f1 tree number result node jump =
      insertGoF f2 tree number result node jump := by
  intro f1
  induction f1 with
  | zero => omega
  | succ g ih =>
    intro f2 tree number result node jump h1 h2
    cases f2 with
    | zero => omega
    | succ g2 =>
      simp only [insertGoF]
      by_cases hge : number ≥ node
      · simp only [hge, if_true]
        by_cases hj : jump = 0
        · simp [hj]
        · simp only [hj, if_false]
          rw [ih g2 _ _ _ _ _ (by omega) (by omega)]
      · simp only [hge, if_false]
        by_cases hj : jump = 0
        · simp [hj]
        · simp only [hj, if_false]
          rw [ih g2 _ _ _ _ _ (by omega) (by omega)]

/-- The loop-shaped equation of EncodeAS.insertGo (matching the source). -/
theorem insertGo_eq (tree : ℕ → ℕ) (number result node jump : ℕ) :
    EncodeAS.insertGo tree number result node jump =
      if number ≥ node then
        (if jump = 0 then (tree, result - tree node)
         else EncodeAS.insertGo tree number (result - tree node) (node + jump) (jump / 2))
      else
        (if jump = 0 then (Function.update tree node (tree node + 1), result)
         else EncodeAS.insertGo (Function.update tree node (tree node + 1))
                number result (node - jump) (jump / 2)) := by
  show insertGoF (jump + 1) tree number result node jump = _
  simp only [insertGoF]
  by_cases hge : number ≥ node
  · simp only [hge, if_true]
    by_cases hj : jump = 0
    · simp [hj]
    · simp only [hj, if_false]
      rw [insertGoF_congr jump (jump / 2 + 1) _ _ _ _ _ (by omega) (by omega)]
      rfl
  · simp only [hge, if_false]
    by_cases hj : jump = 0
    · simp [hj]
    · simp only [hj, if_false]
      rw [insertGoF_congr jump (jump / 2 + 1) _ _ _ _ _ (by omega) (by omega)]
      rfl

theorem removeGoF_congr :
    ∀ f1 f2 tree len number leftCount nodeId jump, jump < f1 → jump < f2 →
      removeGoF f1 tree len number leftCount nodeId jump =
      removeGoF f2 tree len number leftCount nodeId jump := by
  intro f1
  induction f1 with
  | zero => omega
  | succ g ih =>
    intro f2 tree len number leftCount nodeId jump h1 h2
    cases f2 with
    | zero => omega
    | succ g2 =>
      simp only [removeGoF]
      by_cases hin : nodeId < len
      · simp only [hin, if_true]
        by_cases hge : number ≥ add32 (tree nodeId) leftCount
        · simp only [hge, if_true]
          by_cases hj : jump = 0
          · simp [hj]
          · simp only [hj, if_false]
            rw [ih g2 _ _ _ _ _ _ (by omega) (by omega)]
        · simp only [hge, if_false]
          by_cases hj : jump = 0
          · simp [hj]
          · simp only [hj, if_false]
            rw [ih g2 _ _ _ _ _ _ (by omega) (by omega)]
      · simp [hin]

/-- The loop-shaped equation of DecodeAS.removeGo (matching the source). -/
theorem removeGo_eq (tree : ℕ → ℕ) (len number leftCount nodeId jump : ℕ) :
    DecodeAS.removeGo tree len number leftCount nodeId jump =
      if nodeId < len then
        (if number ≥ add32 (tree nodeId) leftCount then
          (if jump = 0 then some (tree, add32 nodeId jump)
           else DecodeAS.removeGo tree len number (add32 leftCount (tree nodeId))
                  (add32 nodeId jump) (jump / 2))
        else
          (if jump = 0 then
            some (Function.update tree nodeId (sub32 (tree nodeId) 1),
                  sub32 (sub32 nodeId jump) 1)
           else DecodeAS.removeGo (Function.update tree nodeId (sub32 (tree nodeId) 1))
                  len number leftCount (sub32 nodeId jump) (jump / 2)))
      else none := by
  show removeGoF (jump + 1) tree len number leftCount nodeId jump = _
  simp only [removeGoF]
  by_cases hin : nodeId < len
  · simp only [hin, if_true]
    by_cases hge : number ≥ add32 (tree nodeId) leftCount
    · simp only [hge, if_true]
      by_cases hj : jump = 0
      · simp [hj]
      · simp only [hj, if_false]
        rw [removeGoF_congr jump (jump / 2 + 1) _ _ _ _ _ _ (by omega) (by omega)]
        rfl
    · simp only [hge, if_false]
      by_cases hj : jump = 0
      · simp [hj]
      · simp only [hj, if_false]
        rw [removeGoF_congr jump (jump / 2 + 1) _ _ _ _ _ _ (by omega) (by omega)]
        rfl
  · simp [hin]

/-! ## Helper lemmas: the cache accumulator refines the naive fold -/

/-- One cache step computes exactly one naive step of the decorated value
result * mul + add, provided the potential re-seed product fits in u64. -/
theorem cacheStep_spec (r : ℕ) (c : EncodeCache) (a m : ℕ)
    (ham : a * m < 2 ^ 64) :
    ∃ r2 c2, cacheStep (r, c) (a, m) = some (r2, c2) ∧
      r2 * c2.mul + c2.add = (r * c.mul + c.add + a) * m := by
  have hamN : a * m < 18446744073709551616 := ham
  unfold cacheStep EncodeCache.addPair EncodeCache.new
  by_cases h1 : c.add + a < 340282366920938463463374607431768211456
  · by_cases h2 : (c.add + a) * m < 340282366920938463463374607431768211456
    · by_cases h3 : c.mul * m < 340282366920938463463374607431768211456
      · exact ⟨r, ⟨(c.add + a) * m, c.mul * m⟩, by simp [h1, h2, h3], by ring⟩
      · exact ⟨r * c.mul + c.add, ⟨a * m, m⟩, by simp [h1, h2, h3, hamN], by ring⟩
    · exact ⟨r * c.mul + c.add, ⟨a * m, m⟩, by simp [h1, h2, hamN], by ring⟩
  · exact ⟨r * c.mul + c.add, ⟨a * m, m⟩, by simp [h1, hamN], by ring⟩

/-- The cache-based fold from any starting state succeeds and computes the
naive fold of the decorated value, when every pair re-seed fits in u64. -/
theorem cacheRunFrom_naive :
    ∀ (pairs : List (ℕ × ℕ)),
      (∀ p ∈ pairs, p.1 * p.2 < 2 ^ 64) →
      ∀ (r : ℕ) (c : EncodeCache), ∃ q, cacheRunFrom (r, c) pairs = some q ∧
        q.1 * q.2.mul + q.2.add = naiveFrom (r * c.mul + c.add) pairs := by
  intro pairs
  induction pairs with
  | nil =>
    intro _ r c
    exact ⟨(r, c), rfl, rfl⟩
  | cons p rest ih =>
    intro h r c
    obtain ⟨r2, c2, hstep, hval⟩ :=
      cacheStep_spec r c p.1 p.2 (h p (List.mem_cons_self p rest))
    obtain ⟨q, hq1, hq2⟩ :=
      ih (fun q hq => h q (List.mem_cons_of_mem p hq)) r2 c2
    refine ⟨q, ?_, ?_⟩
    · rw [cacheRunFrom, List.foldlM_cons]
      show (cacheStep (r, c) p).bind _ = _
      rw [hstep]
      exact hq1
    · rw [hq2, hval]
      rcases p with ⟨a, m⟩
      rfl

/-! ## Helper lemmas: u32 wrapping and nextPow2 bounds -/

theorem u32Mod_eq : u32Mod = 2 ^ 32 := by norm_num [u32Mod]

theorem add32_eq_of_lt {a b : ℕ} (h : a + b < u32Mod) : add32 a b = a + b := by
  unfold add32
  exact Nat.mod_eq_of_lt h

theorem sub32_eq_of_le {a b : ℕ} (hba : b ≤ a) (ha : a < u32Mod) :
    sub32 a b = a - b := by
  unfold sub32
  have hb : b % u32Mod = b := Nat.mod_eq_of_lt (lt_of_le_of_lt hba ha)
  rw [hb]
  have hu : (0 : ℕ) < u32Mod := by norm_num [u32Mod]
  have : a + (u32Mod - b) = (a - b) + u32Mod := by omega
  rw [this, Nat.add_mod_right]
  exact Nat.mod_eq_of_lt (by omega)

theorem nextPow2_ge : ∀ n : ℕ, n ≤ nextPow2 n := by
  intro n
  induction n using Nat.strong_induction_on with
  | _ n ih =>
    rw [nextPow2_eq]
    by_cases hn : n ≤ 1
    · simp [hn]
    · simp only [hn, if_false]
      have h2 : (n + 1) / 2 < n := by omega
      have := ih ((n + 1) / 2) h2
      omega

theorem nextPow2_min : ∀ n k : ℕ, n ≤ 2 ^ k → nextPow2 n ≤ 2 ^ k := by
  intro n
  induction n using Nat.strong_induction_on with
  | _ n ih =>
    intro k hk
    rw [nextPow2_eq]
    by_cases hn : n ≤ 1
    · simpa [hn] using Nat.one_le_two_pow
    · simp only [hn, if_false]
      have hk1 : 1 ≤ k := by
        by_contra hc
        have hk0 : k = 0 := by omega
        rw [hk0] at hk
        omega
      have hsplit : 2 ^ k = 2 * 2 ^ (k - 1) := by
        conv_lhs => rw [show k = (k - 1) + 1 by omega]
        ring
      have hle : (n + 1) / 2 ≤ 2 ^ (k - 1) := by omega
      have := ih ((n + 1) / 2) (by omega) (k - 1) hle
      omega

theorem nextPow2_pow : ∀ n : ℕ, ∃ k, nextPow2 n = 2 ^ k := by
  intro n
  induction n using Nat.strong_induction_on with
  | _ n ih =>
    rw [nextPow2_eq]
    by_cases hn : n ≤ 1
    · exact ⟨0, by simp [hn]⟩
    · obtain ⟨k, hk⟩ := ih ((n + 1) / 2) (by omega)
      exact ⟨k + 1, by simp only [hn, if_false]; rw [hk]; ring⟩

/-! ## Helper lemmas: DecodeAS.remove always returns a value (out length ≥ 2) -/

theorem removeGo_some :
    ∀ jump : ℕ, ∀ (tree : ℕ → ℕ) (len number leftCount nodeId L : ℕ),
      1 ≤ nodeId → 2 * jump ≤ nodeId → nodeId + 2 * jump ≤ L → nodeId < L →
      L ≤ len → L < u32Mod →
      ∃ r, DecodeAS.removeGo tree len number leftCount nodeId jump = some r := by
  intro jump
  induction jump using Nat.strong_induction_on with
  | _ jump ih =>
    intro tree len number leftCount nodeId L h1 h2 h3 h4 h5 h6
    rw [removeGo_eq]
    have hin : nodeId < len := lt_of_lt_of_le h4 h5
    simp only [hin, if_true]
    by_cases hge : number ≥ add32 (tree nodeId) leftCount
    · simp only [hge, if_true]
      by_cases hj : jump = 0
      · exact ⟨(tree, add32 nodeId jump), by simp [hj]⟩
      · simp only [hj, if_false]
        have hadd : add32 nodeId jump = nodeId + jump :=
          add32_eq_of_lt (by omega)
        rw [hadd]
        exact ih (jump / 2) (by omega) tree len number _ (nodeId + jump) L
          (by omega) (by omega) (by omega) (by omega) h5 h6
    · simp only [hge, if_false]
      by_cases hj : jump = 0
      · exact ⟨(Function.update tree nodeId (sub32 (tree nodeId) 1),
          sub32 (sub32 nodeId jump) 1), by simp [hj]⟩
      · simp only [hj, if_false]
        have hsub : sub32 nodeId jump = nodeId - jump :=
          sub32_eq_of_le (by omega) (by omega)
        rw [hsub]
        exact ih (jump / 2) (by omega) _ len number _ (nodeId - jump) L
          (by omega) (by omega) (by omega) (by omega) h5 h6

/-- remove returns a value for every digit when the tree length is at least 2
and fits in u32 strictly. -/
theorem remove_some (s : DecodeAS) (number : ℕ) (h2 : 2 ≤ s.len)
    (hlt : s.len < u32Mod) : ∃ r, s.remove number = some r := by
  unfold DecodeAS.remove
  have hmod : s.len % u32Mod = s.len := Nat.mod_eq_of_lt hlt
  rw [hmod]
  obtain ⟨r, hr⟩ := removeGo_some (s.len / 4) s.tree s.len number 0 (s.len / 2)
    s.len (by omega) (by omega) (by omega) (by omega) (le_refl _) hlt
  exact ⟨_, by rw [hr]; rfl⟩

/-- remove also returns a value in the truncated regime len = 2^32, where
`len as u32` is 0 and the walk degenerates to the single node 0. -/
theorem remove_some_trunc (s : DecodeAS) (number : ℕ) (h : s.len = u32Mod) :
    ∃ r, s.remove number = some r := by
  unfold DecodeAS.remove
  have hmod : s.len % u32Mod = 0 := by rw [h]; exact Nat.mod_self _
  rw [hmod]
  show ∃ r, (DecodeAS.removeGo s.tree s.len number 0 (0 / 2) (0 / 4)).map _ = some r
  rw [removeGo_eq]
  have hin : 0 / 2 < s.len := by rw [h]; norm_num [u32Mod]
  simp only [hin, if_true]
  by_cases hge : number ≥ add32 (s.tree (0 / 2)) 0
  · exact ⟨({ len := s.len, tree := s.tree }, add32 0 0), by simp [hge]⟩
  · exact ⟨({ len := s.len, tree := Function.update s.tree 0 (sub32 (s.tree 0) 1) },
      sub32 (sub32 0 0) 1), by simp [hge]⟩

/-- remove returns a value whenever 2 ≤ len ≤ 2^32. -/
theorem remove_total (s : DecodeAS) (number : ℕ) (h2 : 2 ≤ s.len)
    (hle : s.len ≤ u32Mod) : ∃ r, s.remove number = some r := by
  rcases lt_or_eq_of_le hle with hlt | heq
  · exact remove_some s number h2 hlt
  · exact remove_some_trunc s number heq

theorem remove_len (s : DecodeAS) (number : ℕ) (r : DecodeAS × ℕ)
    (h : s.remove number = some r) : r.1.len = s.len := by
  unfold DecodeAS.remove at h
  rcases hgo : DecodeAS.removeGo s.tree s.len number 0
      (s.len % u32Mod / 2) (s.len % u32Mod / 4) with _ | q
  · rw [hgo] at h; exact absurd h (by simp)
  · rw [hgo] at h
    simp only [Option.map_some'] at h
    injection h with h2
    rw [← h2]

theorem removesLoop_some :
    ∀ (digits : List ℕ) (s : DecodeAS), 2 ≤ s.len → s.len ≤ u32Mod →
      ∃ r, removesLoop s digits = some r ∧ r.1.len = s.len := by
  intro digits
  induction digits with
  | nil => intro s _ _; exact ⟨(s, []), rfl, rfl⟩
  | cons t rest ih =>
    intro s h2 hle
    obtain ⟨r, hr⟩ := remove_total s t h2 hle
    have hrlen := remove_len s t r hr
    obtain ⟨q, hq, hqlen⟩ := ih r.1 (by omega) (by omega)
    refine ⟨(q.1, r.2 :: q.2), ?_, by simp only []; omega⟩
    unfold removesLoop
    rw [hr]
    show (removesLoop r.1 rest).map (fun q => (q.1, r.2 :: q.2)) = _
    rw [hq]
    rfl

theorem divisorProd_factorial :
    ∀ count idx, (idx + 1).factorial * divisorProd idx count =
      (idx + count + 1).factorial := by
  intro count
  induction count with
  | zero => intro idx; simp [divisorProd]
  | succ k ih =>
    intro idx
    show (idx + 1).factorial * ((idx + 2) * divisorProd (idx + 1) k) = _
    have h1 : (idx + 1).factorial * (idx + 2) = (idx + 2).factorial := by
      have hf := Nat.factorial_succ (idx + 1)
      rw [show idx + 1 + 1 = idx + 2 by omega] at hf
      rw [hf]
      ring
    calc (idx + 1).factorial * ((idx + 2) * divisorProd (idx + 1) k)
        = ((idx + 1).factorial * (idx + 2)) * divisorProd (idx + 1) k := by ring
      _ = (idx + 2).factorial * divisorProd (idx + 1) k := by rw [h1]
      _ = (idx + 1 + k + 1).factorial := ih (idx + 1)
      _ = (idx + (k + 1) + 1).factorial := by congr 1; omega

/-- divisorProd 0 (N-1) = N! for N ≥ 1. -/
theorem divisorProd_zero (N : ℕ) (h : 1 ≤ N) :
    divisorProd 0 (N - 1) = N.factorial := by
  have h2 := divisorProd_factorial (N - 1) 0
  norm_num at h2
  rw [h2]
  congr 1
  omega

theorem digitsLoop_add_mul :
    ∀ (count idx c q : ℕ),
      digitsLoop (c + q * divisorProd idx count) idx count =
      digitsLoop c idx count := by
  intro count
  induction count with
  | zero => intro idx c q; rfl
  | succ k ih =>
    intro idx c q
    have hd : 0 < idx + 2 := by omega
    have hexp : c + q * divisorProd idx (k + 1)
        = c + q * divisorProd (idx + 1) k * (idx + 2) := by
      show c + q * ((idx + 2) * divisorProd (idx + 1) k) = _
      ring
    have hmod : (c + q * divisorProd idx (k + 1)) % (idx + 2) = c % (idx + 2) := by
      rw [hexp]
      exact Nat.add_mul_mod_self_right c _ _
    have hdiv : (c + q * divisorProd idx (k + 1)) / (idx + 2)
        = c / (idx + 2) + q * divisorProd (idx + 1) k := by
      rw [hexp]
      exact Nat.add_mul_div_right c _ hd
    show (c + q * divisorProd idx (k + 1)) % (idx + 2) % u32Mod
        :: digitsLoop ((c + q * divisorProd idx (k + 1)) / (idx + 2)) (idx + 1) k
      = c % (idx + 2) % u32Mod :: digitsLoop (c / (idx + 2)) (idx + 1) k
    rw [hmod, hdiv, ih (idx + 1) (c / (idx + 2)) q]

/-- The remainder list of decode_in depends only on the input mod N!. -/
theorem digitsLoop_mod (N c : ℕ) (h : 1 ≤ N) :
    digitsLoop c 0 (N - 1) = digitsLoop (c % N.factorial) 0 (N - 1) := by
  conv_lhs => rw [show c = c % N.factorial + c / N.factorial * N.factorial by
    rw [Nat.mod_add_div']]
  rw [← divisorProd_zero N h, digitsLoop_add_mul]

theorem cntRange_self (S : Finset ℕ) (lo : ℕ) : cntRange S lo lo = 0 := by
  unfold cntRange
  rw [Finset.card_eq_zero, Finset.filter_eq_empty_iff]
  intro s _
  omega

theorem cntRange_split (S : Finset ℕ) (lo mid hi : ℕ) (h1 : lo ≤ mid)
    (h2 : mid ≤ hi) :
    cntRange S lo hi = cntRange S lo mid + cntRange S mid hi := by
  unfold cntRange
  rw [← Finset.card_union_of_disjoint]
  · rw [← Finset.filter_or]
    congr 1
    apply Finset.filter_congr
    intro s _
    omega
  · rw [Finset.disjoint_filter]
    intro s _ hs
    omega

theorem cntRange_insert_mem (S : Finset ℕ) (x lo hi : ℕ) (hx : x ∉ S)
    (h1 : lo ≤ x) (h2 : x < hi) :
    cntRange (insert x S) lo hi = cntRange S lo hi + 1 := by
  unfold cntRange
  rw [Finset.filter_insert]
  rw [if_pos (by exact ⟨h1, h2⟩)]
  rw [Finset.card_insert_of_not_mem]
  intro hmem
  exact hx (Finset.mem_of_mem_filter x hmem)

theorem cntRange_insert_not (S : Finset ℕ) (x lo hi : ℕ)
    (h : ¬ (lo ≤ x ∧ x < hi)) :
    cntRange (insert x S) lo hi = cntRange S lo hi := by
  unfold cntRange
  rw [Finset.filter_insert, if_neg h]

theorem cntRange_le (S : Finset ℕ) (lo hi : ℕ) :
    cntRange S lo hi ≤ hi - lo := by
  unfold cntRange
  calc (S.filter (fun s => lo ≤ s ∧ s < hi)).card
      ≤ (Finset.Ico lo hi).card := by
        apply Finset.card_le_card
        intro s hs
        rw [Finset.mem_filter] at hs
        rw [Finset.mem_Ico]
        exact hs.2
    _ = hi - lo := Nat.card_Ico lo hi

theorem tz_odd (n : ℕ) (h : n % 2 = 1) : tz n = 0 := by
  rw [tz_eq]
  have h0 : ¬ n = 0 := by omega
  simp [h0, h]

/-- tz of an odd multiple of 2^e is e. -/
theorem tz_mul_pow : ∀ (e a : ℕ), tz ((2 * a + 1) * 2 ^ e) = e := by
  intro e
  induction e with
  | zero =>
    intro a
    apply tz_odd
    simp only [pow_zero, mul_one]
    omega
  | succ e ih =>
    intro a
    have hval : (2 * a + 1) * 2 ^ (e + 1) = 2 * ((2 * a + 1) * 2 ^ e) := by ring
    have hpos : 0 < (2 * a + 1) * 2 ^ e :=
      Nat.mul_pos (by omega) (Nat.pos_pow_of_pos e (by omega))
    rw [tz_eq, hval]
    have h0 : ¬ 2 * ((2 * a + 1) * 2 ^ e) = 0 := by omega
    have heven : ¬ 2 * ((2 * a + 1) * 2 ^ e) % 2 = 1 := by omega
    simp only [h0, heven, if_false]
    rw [Nat.mul_div_cancel_left _ (by omega : (0:ℕ) < 2)]
    rw [ih a]

/-- 2^tz(n) divides n, and 2^(tz(n)+1) does not (n positive). -/
theorem tz_spec : ∀ n : ℕ, 0 < n → 2 ^ tz n ∣ n ∧ ¬ (2 ^ (tz n + 1) ∣ n) := by
  intro n
  induction n using Nat.strong_induction_on with
  | _ n ih =>
    intro hpos
    have h0 : ¬ n = 0 := by omega
    by_cases hodd : n % 2 = 1
    · rw [tz_odd n hodd]
      refine ⟨one_dvd n, ?_⟩
      rw [pow_one]
      omega
    · have htz : tz n = tz (n / 2) + 1 := by
        rw [tz_eq, if_neg h0, if_neg hodd]
      rw [htz]
      have hdiv : n / 2 < n := by omega
      have hdpos : 0 < n / 2 := by omega
      obtain ⟨hdvd, hndvd⟩ := ih (n / 2) hdiv hdpos
      constructor
      · obtain ⟨c, hc⟩ := hdvd
        refine ⟨c, ?_⟩
        have hn2 : n = 2 * (n / 2) := by omega
        conv_lhs => rw [hn2, hc]
        ring
      · intro hcon
        apply hndvd
        obtain ⟨c, hc⟩ := hcon
        refine ⟨c, ?_⟩
        have hc2 : n = 2 * (2 ^ (tz (n / 2) + 1) * c) := by
          conv_lhs => rw [hc]
          ring
        omega

theorem tz_unique (n t : ℕ) (hpos : 0 < n) (hdvd : 2 ^ t ∣ n)
    (hndvd : ¬ (2 ^ (t + 1) ∣ n)) : tz n = t := by
  obtain ⟨hd, hnd⟩ := tz_spec n hpos
  rcases Nat.lt_trichotomy (tz n) t with hlt | heq | hgt
  · exact absurd (dvd_trans (pow_dvd_pow 2 (by omega)) hdvd) hnd
  · exact heq
  · exact absurd (dvd_trans (pow_dvd_pow 2 (by omega)) hd) hndvd

/-- Adding a positive r < 2^e to a multiple of 2^e does not change tz. -/
theorem tz_add_pow (K e r : ℕ) (hr0 : 0 < r) (hre : r < 2 ^ e) :
    tz (K * 2 ^ e + r) = tz r := by
  obtain ⟨hdvd, hndvd⟩ := tz_spec r hr0
  have hlt : tz r < e := by
    by_contra hc
    have : 2 ^ e ≤ 2 ^ tz r := Nat.pow_le_pow_right (by omega) (by omega)
    have := Nat.le_of_dvd hr0 hdvd
    omega
  apply tz_unique _ _ (by positivity)
  · apply Nat.dvd_add
    · exact dvd_trans (pow_dvd_pow 2 (by omega)) (dvd_mul_left (2 ^ e) K)
    · exact hdvd
  · intro hcon
    apply hndvd
    have hKdvd : 2 ^ (tz r + 1) ∣ K * 2 ^ e :=
      dvd_trans (pow_dvd_pow 2 (by omega)) (dvd_mul_left (2 ^ e) K)
    exact (Nat.dvd_add_right hKdvd).mp hcon

/-- 2^tz(r) ≤ r for positive r. -/
theorem tz_pow_le (r : ℕ) (hr : 0 < r) : 2 ^ tz r ≤ r :=
  Nat.le_of_dvd hr (tz_spec r hr).1

/-! ## Helper lemmas: correctness of the ranking-tree insert -/

theorem insertGo_zero_ge (t : ℕ → ℕ) (x result n : ℕ) (h : x ≥ n) :
    EncodeAS.insertGo t x result n 0 = (t, result - t n) := by
  rw [insertGo_eq]
  simp [h]

theorem insertGo_zero_lt (t : ℕ → ℕ) (x result n : ℕ) (h : ¬ x ≥ n) :
    EncodeAS.insertGo t x result n 0 = (Function.update t n (t n + 1), result) := by
  rw [insertGo_eq]
  simp [h]

theorem insertGo_step_ge (t : ℕ → ℕ) (x result n j : ℕ) (h : x ≥ n) (hj : j ≠ 0) :
    EncodeAS.insertGo t x result n j =
      EncodeAS.insertGo t x (result - t n) (n + j) (j / 2) := by
  rw [insertGo_eq]
  simp [h, hj]

theorem insertGo_step_lt (t : ℕ → ℕ) (x result n j : ℕ) (h : ¬ x ≥ n) (hj : j ≠ 0) :
    EncodeAS.insertGo t x result n j =
      EncodeAS.insertGo (Function.update t n (t n + 1)) x result (n - j) (j / 2) := by
  rw [insertGo_eq]
  simp [h, hj]

/-- Main invariant lemma for the insert walk.  At a node n = (2a+1)·2^e the
walk enters with jump 2^e/2 and owns the value interval [n - 2^e, n + 2^e).
If every slot in the open index interval stores its left-half count for the
inserted set S, and x lies in the owned interval and is fresh, then the walk
subtracts exactly the number of S-elements in [n - 2^e, x), updates the owned
slots to the counts for insert x S, and leaves all other slots unchanged. -/
theorem insertGo_spec :
    ∀ (e : ℕ) (t : ℕ → ℕ) (S : Finset ℕ) (x result n a : ℕ),
      n = (2 * a + 1) * 2 ^ e →
      n - 2 ^ e ≤ x → x < n + 2 ^ e → x ∉ S →
      (∀ m, n - 2 ^ e < m → m < n + 2 ^ e → t m = cnt S m) →
      cntRange S (n - 2 ^ e) x ≤ result →
      (EncodeAS.insertGo t x result n (2 ^ e / 2)).2
          = result - cntRange S (n - 2 ^ e) x ∧
      (∀ m, n - 2 ^ e < m → m < n + 2 ^ e →
          (EncodeAS.insertGo t x result n (2 ^ e / 2)).1 m = cnt (insert x S) m) ∧
      (∀ m, m ≤ n - 2 ^ e ∨ n + 2 ^ e ≤ m →
          (EncodeAS.insertGo t x result n (2 ^ e / 2)).1 m = t m) := by
  intro e
  induction e with
  | zero =>
    intro t S x result n a hn hx1 hx2 hxS ht hres
    simp only [pow_zero] at hn hx1 hx2 ht hres ⊢
    rw [show (1:ℕ) / 2 = 0 from rfl]
    have hn1 : 1 ≤ n := by omega
    by_cases hge : x ≥ n
    · have hxn : x = n := by omega
      rw [insertGo_zero_ge t x result n hge]
      have htn : t n = cnt S n := ht n (by omega) (by omega)
      have htzn : tz n = 0 := by
        apply tz_odd
        omega
      have hcnt : cnt S n = cntRange S (n - 1) x := by
        unfold cnt
        rw [htzn, pow_zero, hxn]
      refine ⟨?_, ?_, ?_⟩
      · show result - t n = result - cntRange S (n - 1) x
        rw [htn, hcnt]
      · intro m hm1 hm2
        have hmn : m = n := by omega
        subst hmn
        show t m = cnt (insert x S) m
        rw [htn]
        unfold cnt
        rw [htzn, pow_zero]
        rw [cntRange_insert_not S x (m - 1) m (by omega)]
      · intro m _
        rfl
    · have hxn : x = n - 1 := by omega
      rw [insertGo_zero_lt t x result n hge]
      have htzn : tz n = 0 := by
        apply tz_odd
        omega
      refine ⟨?_, ?_, ?_⟩
      · show result = result - cntRange S (n - 1) x
        rw [hxn, cntRange_self]
        omega
      · intro m hm1 hm2
        have hmn : m = n := by omega
        subst hmn
        show Function.update t m (t m + 1) m = cnt (insert x S) m
        rw [Function.update_same]
        rw [ht m (by omega) (by omega)]
        unfold cnt
        rw [htzn, pow_zero]
        rw [cntRange_insert_mem S x (m - 1) m hxS (by omega) (by omega)]
      · intro m hm
        show Function.update t n (t n + 1) m = t m
        rw [Function.update_noteq (by omega)]
  | succ e ih =>
    intro t S x result n a hn hx1 hx2 hxS ht hres
    have hp : (0:ℕ) < 2 ^ e := Nat.pos_pow_of_pos e (by omega)
    have hpow : (2:ℕ) ^ (e + 1) = 2 * 2 ^ e := by ring
    have hn2e : 2 ^ (e + 1) ≤ n := by
      rw [hn]
      have h1 : 1 * 2 ^ (e + 1) ≤ (2 * a + 1) * 2 ^ (e + 1) :=
        Nat.mul_le_mul_right _ (by omega)
      omega
    have htzn : tz n = e + 1 := by
      rw [hn]
      exact tz_mul_pow (e + 1) a
    have hcntn : cnt S n = cntRange S (n - 2 ^ (e + 1)) n := by
      unfold cnt
      rw [htzn]
    have hj2 : (2:ℕ) ^ (e + 1) / 2 = 2 ^ e := by omega
    rw [hj2]
    by_cases hge : x ≥ n
    · rw [insertGo_step_ge t x result n (2 ^ e) hge (by omega)]
      have hn2 : n + 2 ^ e = (2 * (2 * a + 1) + 1) * 2 ^ e := by
        rw [hn]
        ring
      have htn : t n = cnt S n := ht n (by omega) (by omega)
      have hsplit : cntRange S (n - 2 ^ (e + 1)) x
          = cntRange S (n - 2 ^ (e + 1)) n + cntRange S n x :=
        cntRange_split S _ n x (by omega) hge
      obtain ⟨ih1, ih2, ih3⟩ := ih t S x (result - t n) (n + 2 ^ e) (2 * a + 1)
        hn2 (by omega) (by omega) hxS
        (by
          intro m hm1 hm2
          exact ht m (by omega) (by omega))
        (by
          have harg0 : n + 2 ^ e - 2 ^ e = n := by omega
          rw [harg0, htn, hcntn]
          omega)
      refine ⟨?_, ?_, ?_⟩
      · rw [ih1, htn, hcntn, hsplit]
        have harg : n + 2 ^ e - 2 ^ e = n := by omega
        rw [harg]
        omega
      · intro m hm1 hm2
        by_cases hmn : n < m
        · have := ih2 m (by omega) (by omega)
          exact this
        · rw [ih3 m (Or.inl (by omega))]
          rw [ht m hm1 hm2]
          unfold cnt
          rw [cntRange_insert_not S x _ m (by omega)]
      · intro m hm
        apply ih3 m
        rcases hm with hm | hm
        · exact Or.inl (by omega)
        · exact Or.inr (by omega)
    · rw [insertGo_step_lt t x result n (2 ^ e) hge (by omega)]
      have hn2 : n - 2 ^ e = (2 * (2 * a) + 1) * 2 ^ e := by
        have hval : (2 * a + 1) * 2 ^ (e + 1) = (2 * (2 * a) + 1) * 2 ^ e + 2 ^ e := by
          ring
        omega
      have harg : n - 2 ^ e - 2 ^ e = n - 2 ^ (e + 1) := by omega
      have harg2 : n - 2 ^ e + 2 ^ e = n := by omega
      obtain ⟨ih1, ih2, ih3⟩ := ih (Function.update t n (t n + 1)) S x result
        (n - 2 ^ e) (2 * a) hn2 (by omega) (by omega) hxS
        (by
          intro m hm1 hm2
          rw [Function.update_noteq (by omega)]
          exact ht m (by omega) (by omega))
        (by
          rw [harg]
          exact hres)
      refine ⟨?_, ?_, ?_⟩
      · rw [ih1, harg]
      · intro m hm1 hm2
        by_cases hmlt : m < n
        · have := ih2 m (by omega) (by omega)
          exact this
        · by_cases hmeq : m = n
          · subst hmeq
            rw [ih3 m (Or.inr (by omega))]
            rw [Function.update_same]
            rw [ht m (by omega) (by omega)]
            unfold cnt
            rw [htzn]
            rw [cntRange_insert_mem S x (m - 2 ^ (e + 1)) m hxS (by omega) (by omega)]
          · have hmgt : n < m := by omega
            rw [ih3 m (Or.inr (by omega))]
            rw [Function.update_noteq (by omega)]
            rw [ht m (by omega) hm2]
            unfold cnt
            have hr : m = (2 * a + 1) * 2 ^ (e + 1) + (m - n) := by omega
            have htzm : tz m = tz (m - n) := by
              conv_lhs => rw [hr]
              exact tz_add_pow (2 * a + 1) (e + 1) (m - n) (by omega) (by omega)
            have hle : 2 ^ tz m ≤ m - n := by
              rw [htzm]
              exact tz_pow_le (m - n) (by omega)
            rw [cntRange_insert_not S x (m - 2 ^ tz m) m (by omega)]
      · intro m hm
        have hmne : ¬ m = n := by omega
        rw [ih3 m ?_]
        · rw [Function.update_noteq hmne]
        · rcases hm with hm | hm
          · exact Or.inl (by omega)
          · exact Or.inr (by omega)

theorem cntRange_empty (lo hi : ℕ) : cntRange ∅ lo hi = 0 := by
  unfold cntRange
  rfl

theorem cnt_empty (m : ℕ) : cnt ∅ m = 0 := cntRange_empty _ _

/-- EncodeAS.insert on a tree of length 2^k < 2^32 that correctly stores the
slot counts for S: the returned digit is x minus the number of S-elements
below x, and the tree afterwards stores the slot counts for insert x S. -/
theorem insert_spec (k : ℕ) (hk : 1 ≤ k) (hk32 : 2 ^ k < u32Mod)
    (s : EncodeAS) (S : Finset ℕ) (x : ℕ)
    (hlen : s.len = 2 ^ k) (hx : x < 2 ^ k) (hxS : x ∉ S)
    (hinv : ∀ m, 1 ≤ m → m < 2 ^ k → s.tree m = cnt S m) :
    (s.insert x).2 = x - cntRange S 0 x ∧
    (s.insert x).1.len = 2 ^ k ∧
    (∀ m, 1 ≤ m → m < 2 ^ k → (s.insert x).1.tree m = cnt (insert x S) m) := by
  have hmod : s.len % u32Mod = 2 ^ k := by
    rw [hlen]
    exact Nat.mod_eq_of_lt hk32
  have hpowk : (2:ℕ) ^ k = 2 * 2 ^ (k - 1) := by
    conv_lhs => rw [show k = (k - 1) + 1 by omega]
    ring
  have hhalf : (2:ℕ) ^ k / 2 = 2 ^ (k - 1) := by omega
  have hquarter : (2:ℕ) ^ k / 4 = 2 ^ (k - 1) / 2 := by omega
  obtain ⟨h1, h2, h3⟩ := insertGo_spec (k - 1) s.tree S x x (2 ^ (k - 1)) 0
    (by ring)
    (by omega)
    (by omega)
    hxS
    (by
      intro m hm1 hm2
      exact hinv m (by omega) (by omega))
    (by
      have := cntRange_le S (2 ^ (k - 1) - 2 ^ (k - 1)) x
      omega)
  have hz : (2:ℕ) ^ (k - 1) - 2 ^ (k - 1) = 0 := by omega
  have hz2 : (2:ℕ) ^ (k - 1) + 2 ^ (k - 1) = 2 ^ k := by omega
  rw [hz] at h1 h2
  rw [hz2] at h2 h3
  refine ⟨?_, hlen, ?_⟩
  · show (EncodeAS.insertGo s.tree x x (s.len % u32Mod / 2) (s.len % u32Mod / 4)).2 = _
    rw [hmod, hhalf, hquarter, h1]
  · intro m hm1 hm2
    show (EncodeAS.insertGo s.tree x x (s.len % u32Mod / 2) (s.len % u32Mod / 4)).1 m = _
    rw [hmod, hhalf, hquarter]
    exact h2 m (by omega) (by omega)

theorem digitsOf_spec (k : ℕ) (hk : 1 ≤ k) (hk32 : 2 ^ k < u32Mod) :
    ∀ (nums : List ℕ) (s : EncodeAS) (S : Finset ℕ),
      s.len = 2 ^ k →
      (∀ m, 1 ≤ m → m < 2 ^ k → s.tree m = cnt S m) →
      (∀ x ∈ nums, x < 2 ^ k) → nums.Nodup → (∀ x ∈ nums, x ∉ S) →
      (digitsOf s nums).1 = digitsRefAux S nums := by
  intro nums
  induction nums with
  | nil => intros; rfl
  | cons x xs ih =>
    intro s S hlen hinv hval hnodup hdisj
    obtain ⟨h1, h2, h3⟩ := insert_spec k hk hk32 s S x hlen
      (hval x (by simp)) (hdisj x (by simp)) hinv
    show (s.insert x).2 :: (digitsOf (s.insert x).1 xs).1
        = (x - cntRange S 0 x) :: digitsRefAux (insert x S) xs
    rw [h1]
    congr 1
    apply ih (s.insert x).1 (insert x S) h2 h3
    · intro y hy
      exact hval y (by simp [hy])
    · exact (List.nodup_cons.mp hnodup).2
    · intro y hy
      rw [Finset.mem_insert]
      push_neg
      refine ⟨?_, hdisj y (by simp [hy])⟩
      intro heq
      have hxxs : x ∉ xs := (List.nodup_cons.mp hnodup).1
      rw [heq] at hy
      exact hxxs hy

/-- The counting heart of the Lehmer digit equivalence: when S and insert x T
partition range N, the values below x split between S and T. -/
theorem count_below (S T : Finset ℕ) (x N : ℕ)
    (hcover : S ∪ insert x T = Finset.range N) (hdisj : Disjoint S T)
    (hxN : x < N) :
    cntRange S 0 x + (T.filter (fun y => y < x)).card = x := by
  have hcnt0 : cntRange S 0 x = (S.filter (fun y => y < x)).card := by
    unfold cntRange
    congr 1
    apply Finset.filter_congr
    intro s _
    omega
  have hins : (insert x T).filter (fun y => y < x) = T.filter (fun y => y < x) := by
    rw [Finset.filter_insert, if_neg (by omega)]
  have hsplit : (Finset.range N).filter (fun y => y < x)
      = (S.filter (fun y => y < x)) ∪ (T.filter (fun y => y < x)) := by
    rw [← hins, ← Finset.filter_union, hcover]
  have hrange : (Finset.range N).filter (fun y => y < x) = Finset.range x := by
    ext a
    simp only [Finset.mem_filter, Finset.mem_range]
    omega
  have hdisjf : Disjoint (S.filter (fun y => y < x)) (T.filter (fun y => y < x)) :=
    Finset.disjoint_filter_filter hdisj
  have hcard := congrArg Finset.card hsplit
  rw [hrange, Finset.card_range, Finset.card_union_of_disjoint hdisjf] at hcard
  rw [hcnt0]
  omega

/-- The head unfolding of refDigits. -/
theorem refDigits_cons (x : ℕ) (xs : List ℕ) :
    refDigits (x :: xs) = (xs.filter (fun y => y < x)).length :: refDigits xs := by
  show (List.range (xs.length + 1)).map _ = _
  rw [List.range_succ_eq_map, List.map_cons, List.map_map]
  rfl

/-- For the suffix P of a permutation of range N whose earlier values form S,
the reference digit recursion computes the count-of-later-smaller digits. -/
theorem digitsRefAux_perm :
    ∀ (P : List ℕ) (S : Finset ℕ) (N : ℕ),
      P.Nodup →
      S ∪ P.toFinset = Finset.range N →
      Disjoint S P.toFinset →
      digitsRefAux S P = refDigits P := by
  intro P
  induction P with
  | nil => intros; rfl
  | cons x xs ih =>
    intro S N hnodup hcover hdisj
    have hxxs : x ∉ xs := (List.nodup_cons.mp hnodup).1
    have hnd2 : xs.Nodup := (List.nodup_cons.mp hnodup).2
    have htf : (x :: xs).toFinset = insert x xs.toFinset := List.toFinset_cons
    rw [htf] at hcover hdisj
    have hxT : x ∉ xs.toFinset := by
      rw [List.mem_toFinset]
      exact hxxs
    have hdisjT : Disjoint S xs.toFinset :=
      hdisj.mono_right (Finset.subset_insert x xs.toFinset)
    have hxS : x ∉ S := by
      intro hmem
      have : x ∈ S ∩ insert x xs.toFinset :=
        Finset.mem_inter.mpr ⟨hmem, Finset.mem_insert_self x _⟩
      rw [Finset.disjoint_iff_inter_eq_empty.mp hdisj] at this
      exact absurd this (Finset.not_mem_empty x)
    have hxN : x < N := by
      have : x ∈ Finset.range N := by
        rw [← hcover]
        exact Finset.mem_union_right S (Finset.mem_insert_self x _)
      rwa [Finset.mem_range] at this
    rw [refDigits_cons]
    show (x - cntRange S 0 x) :: digitsRefAux (insert x S) xs = _
    congr 1
    · have hkey := count_below S xs.toFinset x N hcover hdisjT hxN
      have hlen : (xs.filter (fun y => y < x)).length
          = (xs.toFinset.filter (fun y => y < x)).card := by
        rw [← List.toFinset_card_of_nodup (hnd2.filter _)]
        congr 1
        ext a
        simp [List.mem_toFinset, List.mem_filter]
      rw [hlen]
      omega
    · apply ih (insert x S) N hnd2
      · rw [← hcover, Finset.insert_union, Finset.union_insert]
      · rw [Finset.disjoint_insert_left]
        exact ⟨hxT, hdisjT⟩

/-! ## Helper lemmas: decomposition of the encode_in loop -/

theorem cacheRunFrom_cons (st : ℕ × EncodeCache) (p : ℕ × ℕ)
    (ps : List (ℕ × ℕ)) :
    cacheRunFrom st (p :: ps) = (cacheStep st p).bind (fun s2 => cacheRunFrom s2 ps) := by
  rw [cacheRunFrom, List.foldlM_cons]
  rfl

/-- Under validation-friendly inputs (fresh, in-range, no duplicates), one
pass of the encode_in loop is the cache fold over the insert digits zipped
with the multipliers totalLen - (index + 1). -/
theorem encodeLoop_decomp :
    ∀ (nums : List ℕ) (idx totalLen : ℕ) (st : EncState),
      (∀ x ∈ nums, x < totalLen) → nums.Nodup →
      (∀ x ∈ nums, st.visited x = false) →
      ∃ v2 t2,
        encodeLoop totalLen nums idx st =
          (match cacheRunFrom (st.result, st.cache)
              ((digitsOf st.encodeAs nums).1.zip
                ((List.range nums.length).map (fun i => totalLen - (idx + i + 1)))) with
          | some q => RunResult.ok ⟨v2, t2, q.1, q.2⟩
          | none => RunResult.panic) := by
  intro nums
  induction nums with
  | nil =>
    intro idx totalLen st _ _ _
    exact ⟨st.visited, st.encodeAs, rfl⟩
  | cons x xs ih =>
    intro idx totalLen st hval hnodup hvis
    have hx : x < totalLen := hval x (by simp)
    have hvx : st.visited x = false := hvis x (by simp)
    have hzip : (digitsOf st.encodeAs (x :: xs)).1.zip
          ((List.range (x :: xs).length).map (fun i => totalLen - (idx + i + 1)))
        = ((st.encodeAs.insert x).2, totalLen - (idx + 1)) ::
          (digitsOf (st.encodeAs.insert x).1 xs).1.zip
            ((List.range xs.length).map (fun i => totalLen - (idx + 1 + i + 1))) := by
      show ((st.encodeAs.insert x).2 :: (digitsOf (st.encodeAs.insert x).1 xs).1).zip
          ((List.range (xs.length + 1)).map (fun i => totalLen - (idx + i + 1))) = _
      rw [List.range_succ_eq_map, List.map_cons, List.map_map]
      rw [List.zip_cons_cons]
      congr 2
      apply List.map_congr_left
      intro i _
      show totalLen - (idx + (i + 1) + 1) = totalLen - (idx + 1 + i + 1)
      congr 1
      omega
    have hvis2 : ∀ y ∈ xs, Function.update st.visited x true y = false := by
      intro y hy
      have hyx : y ≠ x := by
        intro heq
        have := (List.nodup_cons.mp hnodup).1
        rw [heq] at hy
        exact this hy
      rw [Function.update_noteq hyx]
      exact hvis y (by simp [hy])
    have hval2 : ∀ y ∈ xs, y < totalLen := fun y hy => hval y (by simp [hy])
    have hnodup2 : xs.Nodup := (List.nodup_cons.mp hnodup).2
    simp only [encodeLoop, hx, if_true, hvx, Bool.false_eq_true, if_false]
    rcases haddp : st.cache.addPair (st.encodeAs.insert x).2 (totalLen - (idx + 1))
        with _ | c
    · simp only [haddp]
      rcases hnew : EncodeCache.new (st.encodeAs.insert x).2 (totalLen - (idx + 1))
          with _ | c2
      · simp only [hnew]
        refine ⟨st.visited, st.encodeAs, ?_⟩
        rw [hzip, cacheRunFrom_cons]
        simp only [cacheStep, haddp, hnew]
        rfl
      · simp only [hnew]
        obtain ⟨v2, t2, hrec⟩ := ih (idx + 1) totalLen
          ⟨Function.update st.visited x true, (st.encodeAs.insert x).1,
           st.result * st.cache.mul + st.cache.add, c2⟩ hval2 hnodup2 hvis2
        refine ⟨v2, t2, ?_⟩
        rw [hrec, hzip, cacheRunFrom_cons]
        simp only [cacheStep, haddp, hnew]
        rfl
    · simp only [haddp]
      obtain ⟨v2, t2, hrec⟩ := ih (idx + 1) totalLen
        ⟨Function.update st.visited x true, (st.encodeAs.insert x).1, st.result, c⟩
        hval2 hnodup2 hvis2
      refine ⟨v2, t2, ?_⟩
      rw [hrec, hzip, cacheRunFrom_cons]
      simp only [cacheStep, haddp]
      rfl

/-! ## Helper lemmas: the Horner value of the encode fold -/

/-- The naive fold of digits against the multipliers len, len-1, ..., 1 is
the mixed-radix value: v * len! plus the sum of d_i * (len - i)!. -/
theorem naiveFrom_mixed :
    ∀ (ds : List ℕ) (v : ℕ),
      naiveFrom v (ds.zip ((List.range ds.length).map (fun i => ds.length - i)))
        = v * (ds.length).factorial
          + ∑ i in Finset.range ds.length, ds.getD i 0 * (ds.length - i).factorial := by
  intro ds
  induction ds with
  | nil =>
    intro v
    simp [naiveFrom]
  | cons d ds ih =>
    intro v
    have hmap : (List.range (ds.length + 1)).map
          (fun i => ds.length + 1 - i)
        = (ds.length + 1) :: (List.range ds.length).map (fun i => ds.length - i) := by
      rw [List.range_succ_eq_map, List.map_cons, List.map_map]
      congr 1
      apply List.map_congr_left
      intro i _
      show ds.length + 1 - (i + 1) = ds.length - i
      omega
    show naiveFrom v ((d :: ds).zip
        ((List.range (ds.length + 1)).map (fun i => ds.length + 1 - i))) = _
    rw [hmap, List.zip_cons_cons]
    show naiveFrom ((v + d) * (ds.length + 1))
        (ds.zip ((List.range ds.length).map (fun i => ds.length - i))) = _
    rw [ih]
    simp only [List.length_cons]
    rw [Finset.sum_range_succ']
    simp only [List.getD_cons_zero, List.getD_cons_succ]
    have hsum : ∑ i in Finset.range ds.length,
          ds.getD i 0 * (ds.length + 1 - (i + 1)).factorial
        = ∑ i in Finset.range ds.length, ds.getD i 0 * (ds.length - i).factorial := by
      apply Finset.sum_congr rfl
      intro i _
      congr 2
      omega
    rw [hsum]
    have hfact : (ds.length + 1).factorial = (ds.length + 1) * ds.length.factorial :=
      Nat.factorial_succ _
    have hz : (ds.length + 1 - 0).factorial = (ds.length + 1) * ds.length.factorial := by
      rw [Nat.sub_zero]
      exact hfact
    rw [hfact, hz]
    ring

theorem sum_mul_factorial :
    ∀ k : ℕ, ∑ i in Finset.range k, (i + 1) * (i + 1).factorial
      = (k + 1).factorial - 1 := by
  intro k
  induction k with
  | zero => rfl
  | succ k ih =>
    rw [Finset.sum_range_succ, ih]
    have h1 : (k + 1 + 1).factorial = (k + 1) * (k + 1).factorial + (k + 1).factorial := by
      rw [Nat.factorial_succ]
      ring
    have h2 : 1 ≤ (k + 1).factorial := Nat.one_le_iff_ne_zero.mpr (Nat.factorial_ne_zero _)
    omega

/-- Digit-bounded mixed-radix values are below N!. -/
theorem mixedRadix_lt (D : List ℕ) (N : ℕ) (h1 : 1 ≤ N)
    (hD : ∀ i, i < N - 1 → D.getD i 0 ≤ N - 1 - i) :
    mixedRadix D N < N.factorial := by
  unfold mixedRadix
  have hle : ∑ i in Finset.range (N - 1), D.getD i 0 * (N - 1 - i).factorial
      ≤ ∑ i in Finset.range (N - 1), (N - 1 - i) * (N - 1 - i).factorial := by
    apply Finset.sum_le_sum
    intro i hi
    rw [Finset.mem_range] at hi
    exact Nat.mul_le_mul_right _ (hD i hi)
  have hrefl : ∑ i in Finset.range (N - 1), (N - 1 - i) * (N - 1 - i).factorial
      = ∑ i in Finset.range (N - 1), (i + 1) * (i + 1).factorial := by
    rw [← Finset.sum_range_reflect]
    apply Finset.sum_congr rfl
    intro i hi
    rw [Finset.mem_range] at hi
    congr 2 <;> omega
  have hsum := sum_mul_factorial (N - 1)
  have hNfact : (N - 1 + 1).factorial = N.factorial := by
    congr 1
    omega
  have hpos : 1 ≤ N.factorial := Nat.one_le_iff_ne_zero.mpr (Nat.factorial_ne_zero _)
  omega

/-! ## Helper lemmas: byte serialization -/

theorem leToNat_leBytes : ∀ n : ℕ, leToNat (leBytes n) = n := by
  intro n
  induction n using Nat.strong_induction_on with
  | _ n ih =>
    rw [leBytes_eq]
    by_cases h0 : n = 0
    · simp [h0, leToNat]
    · simp only [h0, if_false]
      show n % 256 + 256 * leToNat (leBytes (n / 256)) = n
      rw [ih (n / 256) (by omega)]
      omega

theorem leBytes_bytes_lt : ∀ n : ℕ, ∀ b ∈ leBytes n, b < 256 := by
  intro n
  induction n using Nat.strong_induction_on with
  | _ n ih =>
    intro b hb
    rw [leBytes_eq] at hb
    by_cases h0 : n = 0
    · simp [h0] at hb
    · simp only [h0, if_false, List.mem_cons] at hb
      rcases hb with hb | hb
      · omega
      · exact ih (n / 256) (by omega) b hb

theorem writeBytes_fits :
    ∀ (bs : List ℕ) (L : ℕ), bs.length ≤ L →
      writeBytes bs (List.replicate L 0) = some (bs ++ List.replicate (L - bs.length) 0) := by
  intro bs
  induction bs with
  | nil =>
    intro L _
    simp [writeBytes]
  | cons b bs ih =>
    intro L hL
    simp only [List.length_cons] at hL
    rcases L with _ | L2
    · omega
    · rw [List.replicate_succ]
      show (writeBytes bs (List.replicate L2 0)).map (fun l => b :: l) = _
      rw [ih L2 (by omega)]
      simp only [Option.map_some']
      congr 1
      show b :: (bs ++ List.replicate (L2 - bs.length) 0) = (b :: bs) ++ _
      simp only [List.cons_append, List.length_cons]
      have harg : L2 + 1 - (bs.length + 1) = L2 - bs.length := by omega
      rw [harg]

theorem leToNat_replicate_zero : ∀ m : ℕ, leToNat (List.replicate m 0) = 0 := by
  intro m
  induction m with
  | zero => rfl
  | succ m ih =>
    rw [List.replicate_succ]
    show 0 + 256 * leToNat (List.replicate m 0) = 0
    rw [ih]

theorem leToNat_append_zeros :
    ∀ (bs : List ℕ) (m : ℕ), leToNat (bs ++ List.replicate m 0) = leToNat bs := by
  intro bs
  induction bs with
  | nil =>
    intro m
    simp only [List.nil_append]
    exact leToNat_replicate_zero m
  | cons b bs ih =>
    intro m
    show b + 256 * leToNat (bs ++ List.replicate m 0) = b + 256 * leToNat bs
    rw [ih]

theorem leBytesPad_length (n L : ℕ) (h : (leBytes n).length ≤ L) :
    (leBytesPad n L).length = L := by
  unfold leBytesPad
  rw [List.length_append, List.length_replicate]
  omega

theorem leToNat_leBytesPad (n L : ℕ) : leToNat (leBytesPad n L) = n := by
  unfold leBytesPad
  rw [leToNat_append_zeros, leToNat_leBytes]

/-! ## Helper lemmas: digit-list plumbing -/

theorem digitsRefAux_length :
    ∀ (l : List ℕ) (S : Finset ℕ), (digitsRefAux S l).length = l.length := by
  intro l
  induction l with
  | nil => intro S; rfl
  | cons x xs ih =>
    intro S
    show (digitsRefAux S (x :: xs)).length = xs.length + 1
    rw [digitsRefAux]
    simp [ih]

theorem digitsRefAux_append :
    ∀ (l1 l2 : List ℕ) (S : Finset ℕ),
      digitsRefAux S (l1 ++ l2)
        = digitsRefAux S l1 ++
          digitsRefAux (l1.foldl (fun acc x => insert x acc) S) l2 := by
  intro l1
  induction l1 with
  | nil => intros; rfl
  | cons x xs ih =>
    intro l2 S
    show (x - cntRange S 0 x) :: digitsRefAux (insert x S) (xs ++ l2) = _
    rw [ih l2 (insert x S)]
    rfl

theorem digitsRefAux_take (S : Finset ℕ) (P : List ℕ) (k : ℕ) (hk : k ≤ P.length) :
    digitsRefAux S (P.take k) = (digitsRefAux S P).take k := by
  conv_rhs => rw [← List.take_append_drop k P]
  rw [digitsRefAux_append]
  have hlen : (digitsRefAux S (P.take k)).length = k := by
    rw [digitsRefAux_length, List.length_take]
    omega
  exact (List.take_left' hlen).symm

theorem refDigits_length (P : List ℕ) : (refDigits P).length = P.length := by
  unfold refDigits
  rw [List.length_map, List.length_range]

theorem refDigits_getD (P : List ℕ) (i : ℕ) (hi : i < P.length) :
    (refDigits P).getD i 0
      = ((P.drop (i + 1)).filter (fun y => y < P.getD i 0)).length := by
  unfold refDigits
  rw [List.getD_eq_getElem?_getD, List.getElem?_map, List.getElem?_range hi]
  rfl

theorem refDigits_getD_le (P : List ℕ) (i : ℕ) (hi : i < P.length) :
    (refDigits P).getD i 0 ≤ P.length - 1 - i := by
  rw [refDigits_getD P i hi]
  have h1 := List.length_filter_le (fun y => decide (y < P.getD i 0)) (P.drop (i + 1))
  rw [List.length_drop] at h1
  omega

theorem refDigits_mem_le (P : List ℕ) : ∀ d ∈ refDigits P, d ≤ P.length := by
  intro d hd
  unfold refDigits at hd
  rw [List.mem_map] at hd
  obtain ⟨i, _, hfi⟩ := hd
  rw [← hfi]
  calc ((P.drop (i + 1)).filter (fun y => y < P.getD i 0)).length
      ≤ (P.drop (i + 1)).length := List.length_filter_le _ _
    _ ≤ P.length := by
        rw [List.length_drop]
        omega

theorem getD_take (l : List ℕ) (k i : ℕ) (hi : i < k) :
    (l.take k).getD i 0 = l.getD i 0 := by
  rw [List.getD_eq_getElem?_getD, List.getD_eq_getElem?_getD]
  rw [List.getElem?_take]
  simp [hi]

theorem digitsOf_length :
    ∀ (nums : List ℕ) (s : EncodeAS), (digitsOf s nums).1.length = nums.length := by
  intro nums
  induction nums with
  | nil => intro s; rfl
  | cons x xs ih =>
    intro s
    show ((s.insert x).2 :: (digitsOf (s.insert x).1 xs).1).length = xs.length + 1
    simp [ih]

/-- The full value computed by encode_in's loop and final flush equals the
Horner value of the digit list produced by the tree inserts, provided every
digit times the length fits u64. -/
theorem encodeLoop_naive (P : List ℕ) (ds : List ℕ)
    (hds : (digitsOf (EncodeAS.new P.length) (P.take (P.length - 1))).1 = ds)
    (hnodup : P.Nodup) (hval : ∀ x ∈ P, x < P.length)
    (hprod : ∀ d ∈ ds, d * P.length < 2 ^ 64) :
    ∃ st : EncState,
      encodeLoop P.length (P.take (P.length - 1)) 0
          ⟨fun _ => false, EncodeAS.new P.length, 0, ⟨0, 1⟩⟩ = .ok st ∧
      st.result * st.cache.mul + st.cache.add
        = ∑ i in Finset.range (P.length - 1),
            ds.getD i 0 * (P.length - 1 - i).factorial := by
  have hvaln : ∀ x ∈ P.take (P.length - 1), x < P.length :=
    fun x hx => hval x (List.mem_of_mem_take hx)
  have hnodupn : (P.take (P.length - 1)).Nodup :=
    (List.take_sublist _ _).nodup hnodup
  obtain ⟨v2, t2, hdec⟩ := encodeLoop_decomp (P.take (P.length - 1)) 0 P.length
    ⟨fun _ => false, EncodeAS.new P.length, 0, ⟨0, 1⟩⟩ hvaln hnodupn
    (by intro x _; rfl)
  have hnumslen : (P.take (P.length - 1)).length = P.length - 1 := by
    rw [List.length_take]
    omega
  have hdslen : ds.length = P.length - 1 := by
    rw [← hds, digitsOf_length, hnumslen]
  have hmm : (List.range (P.take (P.length - 1)).length).map
        (fun i => P.length - (0 + i + 1))
      = (List.range ds.length).map (fun i => ds.length - i) := by
    rw [hnumslen, ← hdslen]
    apply List.map_congr_left
    intro i hi
    rw [List.mem_range] at hi
    omega
  have hdec2 : encodeLoop P.length (P.take (P.length - 1)) 0
        ⟨fun _ => false, EncodeAS.new P.length, 0, ⟨0, 1⟩⟩
      = (match cacheRunFrom (0, ⟨0, 1⟩)
            (ds.zip ((List.range ds.length).map (fun i => ds.length - i))) with
         | some q => RunResult.ok ⟨v2, t2, q.1, q.2⟩
         | none => RunResult.panic) := by
    rw [hdec]
    have harg : (digitsOf (⟨fun _ => false, EncodeAS.new P.length, 0, ⟨0, 1⟩⟩ :
          EncState).encodeAs (P.take (P.length - 1))).1.zip
          ((List.range (P.take (P.length - 1)).length).map
            (fun i => P.length - (0 + i + 1)))
        = ds.zip ((List.range ds.length).map (fun i => ds.length - i)) := by
      rw [hmm]
      congr 1
    rw [harg]
  have hbnd : ∀ p ∈ ds.zip ((List.range ds.length).map (fun i => ds.length - i)),
      p.1 * p.2 < 2 ^ 64 := by
    intro p hp
    obtain ⟨hp1, hp2⟩ := List.of_mem_zip hp
    rw [List.mem_map] at hp2
    obtain ⟨i, _, hi2⟩ := hp2
    have hd := hprod p.1 hp1
    have hmle : p.2 ≤ P.length := by omega
    calc p.1 * p.2 ≤ p.1 * P.length := Nat.mul_le_mul_left _ hmle
      _ < 2 ^ 64 := hd
  obtain ⟨q, hq, hqv⟩ := cacheRunFrom_naive
    (ds.zip ((List.range ds.length).map (fun i => ds.length - i))) hbnd 0 ⟨0, 1⟩
  refine ⟨⟨v2, t2, q.1, q.2⟩, ?_, ?_⟩
  · rw [hdec2, hq]
  · have hqv2 : q.1 * q.2.mul + q.2.add
        = naiveFrom 0 (ds.zip ((List.range ds.length).map (fun i => ds.length - i))) :=
      hqv
    show q.1 * q.2.mul + q.2.add = _
    rw [hqv2, naiveFrom_mixed ds 0, Nat.zero_mul, Nat.zero_add, hdslen]

/-- encodeValue in terms of the digit list, with the unfolding of
encode_in's match done once here, on a symbolic P. -/
theorem encodeValue_naive (P : List ℕ) (ds : List ℕ)
    (hds : (digitsOf (EncodeAS.new P.length) (P.take (P.length - 1))).1 = ds)
    (hnodup : P.Nodup) (hval : ∀ x ∈ P, x < P.length)
    (hprod : ∀ d ∈ ds, d * P.length < 2 ^ 64) :
    encodeValue P = some (∑ i in Finset.range (P.length - 1),
        ds.getD i 0 * (P.length - 1 - i).factorial) := by
  obtain ⟨st, hst, hstv⟩ := encodeLoop_naive P ds hds hnodup hval hprod
  unfold encodeValue
  rw [hst]
  show some (st.result * st.cache.mul + st.cache.add) = _
  rw [hstv]

/-- The digit list produced by encode_in's tree over the first N-1 inputs is
the prefix of the reference Lehmer digits, for a permutation of N ≤ 2^31
elements. -/
theorem digits_take_eq (P : List ℕ)
    (hnodup : P.Nodup) (hval : ∀ x ∈ P, x < P.length)
    (hbound : P.length ≤ 2 ^ 31) (h1 : 1 ≤ P.length) :
    (digitsOf (EncodeAS.new P.length) (P.take (P.length - 1))).1
      = (refDigits P).take (P.length - 1) := by
  by_cases hlen2 : 2 ≤ P.length
  · obtain ⟨k, hk⟩ := nextPow2_pow P.length
    have hgeN : P.length ≤ nextPow2 P.length := nextPow2_ge _
    have hk1 : 1 ≤ k := by
      by_contra hc
      have hk0 : k = 0 := by omega
      rw [hk0, pow_zero] at hk
      omega
    have hkle : 2 ^ k ≤ 2 ^ 31 := by
      rw [← hk]
      exact nextPow2_min _ 31 hbound
    have hk32 : 2 ^ k < u32Mod := by
      rw [u32Mod_eq]
      have h31 : (2:ℕ) ^ 31 < 2 ^ 32 := by norm_num
      omega
    have hdig := digitsOf_spec k hk1 hk32 (P.take (P.length - 1))
      (EncodeAS.new P.length) ∅
      (by show nextPow2 P.length = 2 ^ k; exact hk)
      (by
        intro m _ _
        rw [cnt_empty]
        rfl)
      (by
        intro x hx
        have := hval x (List.mem_of_mem_take hx)
        omega)
      ((List.take_sublist _ _).nodup hnodup)
      (by intro x _; exact Finset.not_mem_empty x)
    rw [hdig, digitsRefAux_take ∅ P (P.length - 1) (by omega)]
    congr 1
    apply digitsRefAux_perm P ∅ P.length hnodup
    · rw [Finset.empty_union]
      apply Finset.eq_of_subset_of_card_le
      · intro a ha
        rw [List.mem_toFinset] at ha
        rw [Finset.mem_range]
        exact hval a ha
      · rw [Finset.card_range, List.toFinset_card_of_nodup hnodup]
    · exact Finset.disjoint_left.mpr (fun a ha => absurd ha (Finset.not_mem_empty a))
  · have hP1 : P.length = 1 := by omega
    rw [hP1]
    rfl

/-! ## Helper lemmas: the truncated-tree regime N > 2^31 -/

/-- On a tree whose Vec length truncates to 0 in `len() as u32` and whose
root slot is 0, insert returns its argument unchanged and leaves the tree
alone: the walk starts at node 0 with jump 0. -/
theorem insert_trunc (s : EncodeAS) (x : ℕ) (hlen : s.len % u32Mod = 0)
    (h0 : s.tree 0 = 0) :
    s.insert x = (s, x) := by
  unfold EncodeAS.insert
  rw [hlen]
  have hgo : EncodeAS.insertGo s.tree x x (0 / 2) (0 / 4) = (s.tree, x) := by
    rw [insertGo_eq]
    simp [Nat.zero_le, h0]
  rw [hgo]

/-- In the truncated regime every insert is the identity, so the digit list
is the input list itself and the tree never changes. -/
theorem digitsOf_trunc :
    ∀ (nums : List ℕ) (s : EncodeAS), s.len % u32Mod = 0 → s.tree 0 = 0 →
      digitsOf s nums = (nums, s) := by
  intro nums
  induction nums with
  | nil => intros; rfl
  | cons x xs ih =>
    intro s hlen h0
    show ((s.insert x).2 :: (digitsOf (s.insert x).1 xs).1,
        (digitsOf (s.insert x).1 xs).2) = (x :: xs, s)
    rw [insert_trunc s x hlen h0]
    show (x :: (digitsOf s xs).1, (digitsOf s xs).2) = (x :: xs, s)
    rw [ih s hlen h0]

theorem range'_getD :
    ∀ (n s i : ℕ), i < n → (List.range' s n).getD i 0 = s + i := by
  intro n
  induction n with
  | zero => omega
  | succ n ih =>
    intro s i hi
    rw [List.range'_succ]
    cases i with
    | zero => simp
    | succ i =>
      rw [List.getD_cons_succ, ih (s + 1) i (by omega)]
      omega

theorem range'_drop :
    ∀ (n s i : ℕ), (List.range' s n).drop i = List.range' (s + i) (n - i) := by
  intro n
  induction n with
  | zero =>
    intro s i
    simp
  | succ n ih =>
    intro s i
    cases i with
    | zero => simp
    | succ i =>
      rw [List.range'_succ, List.drop_succ_cons, ih (s + 1) i]
      congr 1 <;> omega

theorem badPerm_length : badPerm.length = 2 ^ 31 + 1 := by
  show (1 :: 0 :: List.range' 2 (2 ^ 31 - 1)).length = 2 ^ 31 + 1
  rw [List.length_cons, List.length_cons, List.length_range']
  norm_num

theorem badPerm_getD (i : ℕ) (h2 : 2 ≤ i) (hi : i < 2 ^ 31 + 1) :
    badPerm.getD i 0 = i := by
  show (1 :: 0 :: List.range' 2 (2 ^ 31 - 1)).getD i 0 = i
  rw [show i = (i - 2) + 1 + 1 by omega]
  rw [List.getD_cons_succ, List.getD_cons_succ]
  rw [range'_getD (2 ^ 31 - 1) 2 (i - 2) (by omega)]
  omega

theorem badPerm_nodup : badPerm.Nodup := by
  show (1 :: 0 :: List.range' 2 (2 ^ 31 - 1)).Nodup
  rw [List.nodup_cons, List.nodup_cons]
  refine ⟨?_, ?_, List.nodup_range' 2 (2 ^ 31 - 1)⟩
  · intro h
    rcases List.mem_cons.mp h with h | h
    · omega
    · have := List.mem_range'_1.mp h
      omega
  · intro h
    have := List.mem_range'_1.mp h
    omega

theorem badPerm_vals : ∀ x ∈ badPerm, x < 2 ^ 31 + 1 := by
  intro x hx
  have hx2 : x ∈ (1 :: 0 :: List.range' 2 (2 ^ 31 - 1)) := hx
  rcases List.mem_cons.mp hx2 with h | hx3
  · omega
  rcases List.mem_cons.mp hx3 with h | h
  · omega
  · have := List.mem_range'_1.mp h
    omega

theorem badPerm_refDigit_zero : (refDigits badPerm).getD 0 0 = 1 := by
  rw [refDigits_getD badPerm 0 (by rw [badPerm_length]; norm_num)]
  have hg : badPerm.getD 0 0 = 1 := rfl
  rw [hg]
  have hd : badPerm.drop 1 = 0 :: List.range' 2 (2 ^ 31 - 1) := rfl
  rw [hd, List.filter_cons]
  have hfil : (List.range' 2 (2 ^ 31 - 1)).filter (fun y => decide (y < 1)) = [] := by
    rw [List.filter_eq_nil_iff]
    intro a ha
    have := (List.mem_range'_1.mp ha).1
    simp only [decide_eq_true_eq]
    omega
  rw [hfil]
  rfl

theorem badPerm_refDigit_one : (refDigits badPerm).getD 1 0 = 0 := by
  rw [refDigits_getD badPerm 1 (by rw [badPerm_length]; norm_num)]
  have hg : badPerm.getD 1 0 = 0 := rfl
  rw [hg]
  rw [List.filter_eq_nil_iff.mpr ?_]
  · rfl
  · intro a _
    simp only [decide_eq_true_eq]
    omega

theorem badPerm_refDigit_big (i : ℕ) (h2 : 2 ≤ i) (hi : i < 2 ^ 31) :
    (refDigits badPerm).getD i 0 = 0 := by
  rw [refDigits_getD badPerm i (by rw [badPerm_length]; omega)]
  rw [badPerm_getD i h2 (by omega)]
  have hdrop : badPerm.drop (i + 1) = List.range' (i + 1) (2 ^ 31 - i) := by
    show (1 :: 0 :: List.range' 2 (2 ^ 31 - 1)).drop (i + 1) = _
    rw [show i + 1 = (i - 1) + 1 + 1 by omega]
    rw [List.drop_succ_cons, List.drop_succ_cons]
    rw [range'_drop (2 ^ 31 - 1) 2 (i - 1)]
    congr 1 <;> omega
  rw [hdrop]
  rw [List.filter_eq_nil_iff.mpr ?_]
  · rfl
  · intro a ha
    have := (List.mem_range'_1.mp ha).1
    simp only [decide_eq_true_eq]
    omega

/-! ## Claim theorems -/

/-- Claim C8: the BigCache combine operation (combined.add = aL * mR + aR,
combined.mul = mL * mR) is associative, and (add = 0, mul = 1) is a two-sided
identity. -/
theorem C8_bigcache_combine_monoid :
    (∀ x y z : BigCache,
        BigCache.combine (BigCache.combine x y) z =
          BigCache.combine x (BigCache.combine y z)) ∧
    (∀ x : BigCache,
        BigCache.combine BigCache.identity x = x ∧
        BigCache.combine x BigCache.identity = x) := by
  constructor
  · intro x y z
    simp only [BigCache.combine, BigCache.mk.injEq]
    constructor <;> ring
  · intro x
    constructor
    · simp [BigCache.combine, BigCache.identity]
    · simp [BigCache.combine, BigCache.identity]

/-- Claim C7 (amended): the cache-based encode loop — each successful push
transforming (A, M) into ((A+a) * m, M * m), failing exactly when the checked
u128 addition or one of the two checked u128 multiplications overflows, and
on failure flushing result := result * mul + add and re-seeding the cache
with (add = a * m computed in u64, mul = m) — yields after the final flush
the same big integer as the naive loop result := (result + a) * m, for every
sequence of pairs whose re-seed products a * m fit in u64 (as they do in
encode_in, where a, m < 2^32). -/
theorem C7_cache_accumulator_refines_naive (pairs : List (ℕ × ℕ))
    (h : ∀ p ∈ pairs, p.1 * p.2 < 2 ^ 64) :
    cacheRun pairs = some (naiveRun pairs) := by
  obtain ⟨q, hq1, hq2⟩ := cacheRunFrom_naive pairs h 0 ⟨0, 1⟩
  unfold cacheRun
  rw [hq1]
  show some (q.1 * q.2.mul + q.2.add) = some (naiveRun pairs)
  rw [hq2]
  rfl

/-- Witness for C7: a concrete run of four pairs that forces one mid-sequence
flush and agrees with the naive loop. -/
theorem C7_cache_accumulator_refines_naive_witness :
    cacheRun [(2 ^ 31, 2 ^ 32), (2 ^ 31, 2 ^ 32), (2 ^ 31, 2 ^ 32), (2 ^ 31, 2 ^ 32)] =
      some (naiveRun [(2 ^ 31, 2 ^ 32), (2 ^ 31, 2 ^ 32), (2 ^ 31, 2 ^ 32), (2 ^ 31, 2 ^ 32)]) :=
  C7_cache_accumulator_refines_naive _ (by decide)

/-- Counterexample for C7 as stated: the push (a, m) = (2^63, 2^63) on the
fresh cache succeeds even though the product (A + a) * m overflows u64 (the
checks are u128); and on the pair list [(2^63, 2^63), (2^63, 2^63)] the loop
panics in the re-seed (u64 unwrap), so it does not return the naive value. -/
theorem C7_overflow_is_u128_not_u64_counterexample :
    EncodeCache.addPair ⟨0, 1⟩ (2 ^ 63) (2 ^ 63) = some ⟨2 ^ 126, 2 ^ 63⟩ ∧
    ¬ ((0 + 2 ^ 63) * 2 ^ 63 < 2 ^ 64) ∧
    cacheRun [(2 ^ 63, 2 ^ 63), (2 ^ 63, 2 ^ 63)] = none ∧
    cacheRun [(2 ^ 63, 2 ^ 63), (2 ^ 63, 2 ^ 63)] ≠
      some (naiveRun [(2 ^ 63, 2 ^ 63), (2 ^ 63, 2 ^ 63)]) := by
  refine ⟨by decide, by decide, by decide, by decide⟩

/-- Claim C4 (code bug): on a malformed code whose integer is outside
[0, N!), decode.rs::divide ends with a nonzero residual dividend and panics
on `assert_eq!(dividend, 0)` instead of writing a failure sentinel, and
Lehmer::decode_in returns Ok (never the Decode error): here the work item
(dividend 2, start_index 2, one remainder cell) panics, while decoding the
byte [2] with out length 2 (2 ≥ 2! = 2) returns Ok([0, 1]). -/
theorem C4_divide_asserts_and_decode_returns_ok :
    divide 2 2 1 = none ∧ decodeIn [2] 2 = .ok [0, 1] := by
  refine ⟨by decide, by decide⟩

/-- Claim C2 (code bug): encode_in iterates numbers[..len-1], so the last
element is never validated: the duplicate [0, 0] and the out-of-range
[2, 1, 3] are encoded as Ok (contradicting the crate doc, which lists [0, 0]
as invalid), while the same violations at non-last positions are rejected. -/
theorem C2_last_element_not_validated :
    encodeIn [0, 0] [0] = .ok [0] ∧
    encodeIn [2, 1, 3] [0] = .ok [5] ∧
    encodeIn [0, 0, 1] [0] = .err .validationDuplicateNumber ∧
    encodeIn [0, 5, 1] [0] = .err .validationOutOfRange := by
  refine ⟨by decide, by decide, by decide, by decide⟩

/-- Claim C9 (code bug): encoding [0] yields the empty code, but decoding the
empty code with element count 1 does not recover [0]: DecodeAS::remove(0) on
the one-element tree reaches `node_id -= 1` at node_id = 0, wrapping to
u32::MAX (release) / panicking (debug), so decode_in returns Ok([4294967295])
instead of Ok([0]). -/
theorem C9_decode_of_singleton_underflows :
    encodeIn [0] [] = .ok [] ∧
    ((DecodeAS.new 1).remove 0).map (fun r => r.2) = some 4294967295 ∧
    decodeIn [] 1 = .ok [4294967295] := by
  refine ⟨by decide, by decide, by decide⟩

/-- Claim C6 (amended): for every permutation P of length N ≤ 2^31, calling
EncodeAS::insert(P[i]) in order on a fresh tree of N elements returns exactly
the reference Lehmer digits d[i] = number of j > i with P[j] < P[i];
equivalently each insert(x) returns x minus the number of already-inserted
values less than x.  (For N > 2^31 the tree size 2^32 truncates in the
`tree.len() as u32` cast and the walk degenerates; see the counterexample.) -/
theorem C6_insert_returns_lehmer_digits (P : List ℕ) (N : ℕ)
    (hN : P.length = N) (hnodup : P.Nodup) (hval : ∀ x ∈ P, x < N)
    (hbound : N ≤ 2 ^ 31) :
    encodeDigits N P = refDigits P := by
  subst hN
  by_cases hlen2 : 2 ≤ P.length
  · obtain ⟨k, hk⟩ := nextPow2_pow P.length
    have hgeN : P.length ≤ nextPow2 P.length := nextPow2_ge _
    have hk1 : 1 ≤ k := by
      by_contra hc
      have hk0 : k = 0 := by omega
      rw [hk0, pow_zero] at hk
      omega
    have hkle : 2 ^ k ≤ 2 ^ 31 := by
      rw [← hk]
      exact nextPow2_min _ 31 hbound
    have hk32 : 2 ^ k < u32Mod := by
      rw [u32Mod_eq]
      have h31 : (2:ℕ) ^ 31 < 2 ^ 32 := by norm_num
      omega
    have hdig := digitsOf_spec k hk1 hk32 P (EncodeAS.new P.length) ∅
      (by show nextPow2 P.length = 2 ^ k; exact hk)
      (by
        intro m _ _
        rw [cnt_empty]
        rfl)
      (by
        intro x hx
        have := hval x hx
        omega)
      hnodup
      (by intro x _; exact Finset.not_mem_empty x)
    unfold encodeDigits
    rw [hdig]
    apply digitsRefAux_perm P ∅ P.length hnodup
    · rw [Finset.empty_union]
      apply Finset.eq_of_subset_of_card_le
      · intro a ha
        rw [List.mem_toFinset] at ha
        rw [Finset.mem_range]
        exact hval a ha
      · rw [Finset.card_range, List.toFinset_card_of_nodup hnodup]
    · exact Finset.disjoint_left.mpr (fun a ha => absurd ha (Finset.not_mem_empty a))
  · rcases P with _ | ⟨x, rest⟩
    · rfl
    · rcases rest with _ | ⟨y, more⟩
      · have hx : x = 0 := by
          have := hval x (by simp)
          simp only [List.length_cons, List.length_nil] at this
          omega
        subst hx
        decide
      · exfalso
        simp only [List.length_cons] at hlen2
        omega

/-- Counterexample for C6 as stated: on a fresh tree of N = 2^31 + 1
elements, the Vec length 2^32 truncates to 0 in `self.tree.len() as u32`, so
every insert walks the single node 0 and returns its argument unchanged: the
inserts 1, 0, 2 return [1, 0, 2], but the third must be
2 - (number of already-inserted values below 2) = 0. -/
theorem C6_truncation_counterexample :
    encodeDigits (2 ^ 31 + 1) [1, 0, 2] = [1, 0, 2] ∧
    encodeDigits (2 ^ 31 + 1) [1, 0, 2] ≠ [1, 0, 0] := by
  refine ⟨by decide, by decide⟩

/-- Witness for C6 on the concrete permutation of the crate's own tests. -/
theorem C6_insert_returns_lehmer_digits_witness :
    encodeDigits 8 [7, 2, 0, 6, 5, 1, 4, 3] = refDigits [7, 2, 0, 6, 5, 1, 4, 3] :=
  C6_insert_returns_lehmer_digits [7, 2, 0, 6, 5, 1, 4, 3] 8 (by decide)
    (by decide) (by decide) (by decide)

/-- Claim C10: for every input byte string and every output length N with
2 ≤ N < 2^32, Lehmer::decode_in returns Ok — no public operation ever
produces the DecodeError variant — and when the parsed integer C is ≥ N! the
residual quotient of the N-1 successive divisions is silently discarded, so
the output equals the decode pipeline applied to C mod N!. -/
theorem C10_decode_in_total_and_mod (encoded : List ℕ) (N : ℕ)
    (h2 : 2 ≤ N) (hN : N < u32Mod) :
    (∃ out, decodeIn encoded N = .ok out) ∧
    decodeIn encoded N = decodePipeline (leToNat encoded % N.factorial) N := by
  have hne : ¬ N = 0 := by omega
  have hdef : decodeIn encoded N = decodePipeline (leToNat encoded) N := by
    unfold decodeIn
    simp [hne]
  have hmod : decodePipeline (leToNat encoded) N
      = decodePipeline (leToNat encoded % N.factorial) N := by
    unfold decodePipeline
    rw [digitsLoop_mod N (leToNat encoded) (by omega)]
  refine ⟨?_, by rw [hdef, hmod]⟩
  have hlen : (DecodeAS.new N).len = nextPow2 N := rfl
  have hge2 : 2 ≤ (DecodeAS.new N).len := by
    rw [hlen]
    have := nextPow2_ge N
    omega
  have hle : (DecodeAS.new N).len ≤ u32Mod := by
    rw [hlen, u32Mod_eq]
    exact nextPow2_min N 32 (by rw [u32Mod_eq] at hN; omega)
  obtain ⟨r, hr, hrlen⟩ := removesLoop_some
    ((digitsLoop (leToNat encoded) 0 (N - 1)).reverse) (DecodeAS.new N) hge2 hle
  obtain ⟨q, hq⟩ := remove_total r.1 0 (by omega) (by omega)
  refine ⟨r.2 ++ [q.2], ?_⟩
  rw [hdef]
  unfold decodePipeline
  rw [hr]
  show (match r.1.remove 0 with
    | some q => RunResult.ok (r.2 ++ [q.2])
    | none => RunResult.panic) = RunResult.ok (r.2 ++ [q.2])
  rw [hq]

/-- Witness for C10 at the concrete malformed code [200, 1] (value 456 ≥ 3!)
with N = 3. -/
theorem C10_decode_in_total_and_mod_witness :
    (∃ out, decodeIn [200, 1] 3 = .ok out) ∧
    decodeIn [200, 1] 3 = decodePipeline (leToNat [200, 1] % Nat.factorial 3) 3 :=
  C10_decode_in_total_and_mod [200, 1] 3 (by norm_num) (by norm_num [u32Mod])

/-- Claim C1 (code bug): the round-trip fails at the permutation [0] (N = 1):
encode([0]) produces the empty code, and decoding it back yields
[4294967295], not [0], because of the node_id underflow in
DecodeAS::remove. -/
theorem C1_roundtrip_fails_at_singleton :
    (match encodeIn [0] [] with
     | .ok code => decodeIn code 1
     | r => r) = .ok [4294967295] ∧
    decodeIn [] 1 ≠ .ok [0] := by
  refine ⟨by decide, by decide⟩

/-- Claim C5 (amended to N ≤ 2^31 and to the actual padding target): for
every valid permutation P of length N with 1 ≤ N ≤ 2^31, the big integer
computed by encode equals the mixed-radix value
C = D[0]·(N-1)! + D[1]·(N-2)! + … + D[N-2]·1! of the reference Lehmer
digits D of P, C < N!, and running encode_in into a zeroed buffer of any
length L that holds the bytes of C returns exactly the little-endian
representation of C zero-padded to length L (the code pads to the given
buffer, whose size the caller takes from get_encode_size). -/
theorem C5_encode_is_mixed_radix (P : List ℕ) (N L : ℕ)
    (hN : P.length = N) (h1 : 1 ≤ N) (hbound : N ≤ 2 ^ 31)
    (hnodup : P.Nodup) (hval : ∀ x ∈ P, x < N)
    (hL : (leBytes (mixedRadix (refDigits P) N)).length ≤ L) :
    encodeValue P = some (mixedRadix (refDigits P) N) ∧
    mixedRadix (refDigits P) N < N.factorial ∧
    encodeIn P (List.replicate L 0) = .ok (leBytesPad (mixedRadix (refDigits P) N) L) ∧
    (leBytesPad (mixedRadix (refDigits P) N) L).length = L ∧
    leToNat (leBytesPad (mixedRadix (refDigits P) N) L) = mixedRadix (refDigits P) N := by
  subst hN
  have hdig : (digitsOf (EncodeAS.new P.length) (P.take (P.length - 1))).1
      = (refDigits P).take (P.length - 1) :=
    digits_take_eq P hnodup hval hbound h1
  have hsum : ∑ i in Finset.range (P.length - 1),
        ((refDigits P).take (P.length - 1)).getD i 0 * (P.length - 1 - i).factorial
      = mixedRadix (refDigits P) P.length := by
    unfold mixedRadix
    apply Finset.sum_congr rfl
    intro i hi
    rw [Finset.mem_range] at hi
    rw [getD_take _ _ _ hi]
  have hprod : ∀ d ∈ (refDigits P).take (P.length - 1), d * P.length < 2 ^ 64 := by
    intro d hd
    have hd2 : d ∈ refDigits P := List.mem_of_mem_take hd
    have hdle := refDigits_mem_le P d hd2
    have h2 : d * P.length ≤ P.length * P.length := Nat.mul_le_mul_right _ hdle
    have h3 : P.length * P.length ≤ 2 ^ 31 * 2 ^ 31 := Nat.mul_le_mul hbound hbound
    have h4 : (2:ℕ) ^ 31 * 2 ^ 31 < 2 ^ 64 := by norm_num
    omega
  obtain ⟨st, hst, hstv⟩ :=
    encodeLoop_naive P ((refDigits P).take (P.length - 1)) hdig hnodup hval hprod
  have hC : st.result * st.cache.mul + st.cache.add = mixedRadix (refDigits P) P.length := by
    rw [hstv, hsum]
  have hDlt : mixedRadix (refDigits P) P.length < P.length.factorial := by
    apply mixedRadix_lt _ _ h1
    intro i hi
    exact refDigits_getD_le P i (by omega)
  have hemp : P.isEmpty = false := by
    rcases P with _ | ⟨a, as⟩
    · simp at h1
    · rfl
  refine ⟨?_, hDlt, ?_, leBytesPad_length _ _ hL, leToNat_leBytesPad _ _⟩
  · unfold encodeValue
    rw [hst]
    show some (st.result * st.cache.mul + st.cache.add) = _
    rw [hC]
  · unfold encodeIn
    simp only [hemp, Bool.false_eq_true, if_false]
    rw [hst]
    show (match writeBytes (leBytes (st.result * st.cache.mul + st.cache.add))
        (List.replicate L 0) with
      | some out2 => RunResult.ok out2
      | none => RunResult.panic) = _
    rw [hC, writeBytes_fits _ _ hL]
    rfl

/-- Witness for C5 on the permutation of the crate's own tests, whose code
value is 36835 = [227, 143] in little-endian bytes, padded to 4 bytes. -/
theorem C5_encode_is_mixed_radix_witness :
    encodeValue [7, 2, 0, 6, 5, 1, 4, 3]
      = some (mixedRadix (refDigits [7, 2, 0, 6, 5, 1, 4, 3]) 8) ∧
    mixedRadix (refDigits [7, 2, 0, 6, 5, 1, 4, 3]) 8 < Nat.factorial 8 ∧
    encodeIn [7, 2, 0, 6, 5, 1, 4, 3] (List.replicate 4 0)
      = .ok (leBytesPad (mixedRadix (refDigits [7, 2, 0, 6, 5, 1, 4, 3]) 8) 4) ∧
    (leBytesPad (mixedRadix (refDigits [7, 2, 0, 6, 5, 1, 4, 3]) 8) 4).length = 4 ∧
    leToNat (leBytesPad (mixedRadix (refDigits [7, 2, 0, 6, 5, 1, 4, 3]) 8) 4)
      = mixedRadix (refDigits [7, 2, 0, 6, 5, 1, 4, 3]) 8 :=
  C5_encode_is_mixed_radix [7, 2, 0, 6, 5, 1, 4, 3] 8 4 (by decide) (by decide)
    (by decide) (by decide) (by decide) (by decide)

/-- Counterexample for C5 as stated (no length bound): on the valid
permutation [1, 0, 2, 3, …, 2^31] of N = 2^31 + 1 elements the tree Vec
length 2^32 truncates to 0 in `self.tree.len() as u32`, every insert
returns its argument unchanged, and the big integer computed by encode is
the Horner value of the raw inputs, strictly larger than the mixed-radix
value of the true Lehmer digits. -/
theorem C5_truncation_counterexample :
    badPerm.length = 2 ^ 31 + 1 ∧ badPerm.Nodup ∧ (∀ x ∈ badPerm, x < 2 ^ 31 + 1) ∧
    encodeValue badPerm ≠ some (mixedRadix (refDigits badPerm) (2 ^ 31 + 1)) := by
  refine ⟨badPerm_length, badPerm_nodup, badPerm_vals, ?_⟩
  have hval : ∀ x ∈ badPerm, x < badPerm.length := by
    rw [badPerm_length]
    exact badPerm_vals
  have hnew0 : (EncodeAS.new badPerm.length).len % u32Mod = 0 := by
    rw [badPerm_length]
    show nextPow2 (2 ^ 31 + 1) % u32Mod = 0
    decide
  have hds : (digitsOf (EncodeAS.new badPerm.length) (badPerm.take (badPerm.length - 1))).1
      = badPerm.take (badPerm.length - 1) := by
    rw [digitsOf_trunc _ _ hnew0 rfl]
  have hprod : ∀ d ∈ badPerm.take (badPerm.length - 1), d * badPerm.length < 2 ^ 64 := by
    intro d hd
    have hd2 := hval d (List.mem_of_mem_take hd)
    rw [badPerm_length] at hd2 ⊢
    have hdle : d ≤ 2 ^ 31 := by omega
    calc d * (2 ^ 31 + 1) ≤ 2 ^ 31 * (2 ^ 31 + 1) := Nat.mul_le_mul_right _ hdle
      _ < 2 ^ 64 := by norm_num
  have hvalue :=
    encodeValue_naive badPerm (badPerm.take (badPerm.length - 1)) hds badPerm_nodup hval hprod
  rw [badPerm_length, Nat.add_sub_cancel] at hvalue
  have hclaim : mixedRadix (refDigits badPerm) (2 ^ 31 + 1)
      = ∑ i in Finset.range (2 ^ 31),
          (refDigits badPerm).getD i 0 * (2 ^ 31 - i).factorial := by
    unfold mixedRadix
    rw [Nat.add_sub_cancel]
  have hgt : ∑ i in Finset.range (2 ^ 31),
        (refDigits badPerm).getD i 0 * (2 ^ 31 - i).factorial
      < ∑ i in Finset.range (2 ^ 31),
          (badPerm.take (2 ^ 31)).getD i 0 * (2 ^ 31 - i).factorial := by
    apply Finset.sum_lt_sum
    · intro i hi
      rw [Finset.mem_range] at hi
      apply Nat.mul_le_mul_right
      rw [getD_take badPerm (2 ^ 31) i hi]
      by_cases h0 : i = 0
      · subst h0
        rw [badPerm_refDigit_zero]
        have hg : badPerm.getD 0 0 = 1 := rfl
        rw [hg]
      · by_cases h1 : i = 1
        · subst h1
          rw [badPerm_refDigit_one]
          exact Nat.zero_le _
        · rw [badPerm_refDigit_big i (by omega) hi]
          exact Nat.zero_le _
    · refine ⟨2, Finset.mem_range.mpr (by norm_num), ?_⟩
      rw [getD_take badPerm (2 ^ 31) 2 (by norm_num)]
      rw [badPerm_refDigit_big 2 (by norm_num) (by norm_num)]
      rw [badPerm_getD 2 (by norm_num) (by norm_num)]
      rw [Nat.zero_mul]
      have := Nat.factorial_pos (2 ^ 31 - 2)
      omega
  rw [hvalue, hclaim]
  intro h
  have h2 := Option.some.inj h
  omega

end BigLehmer
